import Mathlib

/-!
The pipe of `internal/fs/pipe.go`

A shallow embedding of the pipe channel (`pipeChan`), of its two directional
views (`pipeReadOnly`, `pipeWriteOnly`) and of the Go channel operations they
are built from, followed by the properties proved about them.

Conventions of the embedding:

* a Go channel is its queue, its capacity and its closed flag;
* a method with a pointer receiver takes the current value of the shared
  `pipeChan` and gives back its new value inside an `Outcome`;
* a `select` picks, among the cases that can proceed, the one the runtime polls
  first; the poll order is an argument (`sched`), so that a statement
  quantified over `sched` covers every choice the runtime can make;
* where the two ends of a pipe are made (`newPipe`), the `*pipeChan` they hold
  is an address on a `Heap` of `pipeChan` objects;
* a goroutine that finds no case ready and has no `default` parks
  (`Outcome.blocked`); a send on a closed channel and a close of a closed
  channel abort the program (`Outcome.panicked`).
-/

namespace fs

/-- One byte of the stream. -/
abbrev Byte := Fin 256

/-- Descriptor identifier (`FID`), an unsigned integer. -/
abbrev FID := Nat

/-- Modelled from the spec: the error values the pipe returns. `io.EOF` and
`io.ErrShortWrite` are the standard library values; `interop.BadFileNumber fid`
(the bad-file-descriptor error identifying a FID) and `interop.ErrNotImplemented`
(the fixed unsupported-operation error, distinct from bad-descriptor) are
declared outside the files at hand. -/
inductive Error where
  | EOF
  | ErrShortWrite
  | BadFileNumber (fid : FID)
  | ErrNotImplemented
  deriving DecidableEq, Repr

/-- The run-time panics a channel operation can raise. -/
inductive Panic where
  | sendOnClosedChannel
  | closeOfClosedChannel
  deriving DecidableEq, Repr

/-- A buffered Go channel of bytes: queued elements (head is the oldest),
capacity, closed flag. -/
structure Chan where
  queue : List Byte
  cap : Nat
  closed : Bool
  deriving DecidableEq, Repr

/-- The value `make(chan byte, cap)`. -/
def Chan.make (cap : Nat) : Chan :=
  { queue := [], cap := cap, closed := false }

/-- The value `len(c)`. -/
def Chan.len (c : Chan) : Nat := c.queue.length

/-- A receive can proceed when an element is queued or the channel is closed. -/
def Chan.recvReady (c : Chan) : Bool :=
  !c.queue.isEmpty || c.closed

/-- A send can proceed when the channel is closed (it then panics) or the
queue has room. -/
def Chan.sendReady (c : Chan) : Bool :=
  c.closed || decide (c.queue.length < c.cap)

/-- The statement `b, ok := <-c` on a channel whose receive can proceed: the
oldest element with `ok = true`, or the zero value with `ok = false` once the
channel is closed and drained. -/
def Chan.recv (c : Chan) : Byte × Bool × Chan :=
  match c.queue with
  | b :: rest => (b, true, { c with queue := rest })
  | [] => (0, false, c)

/-- The statement `c <- b` on a channel whose send can proceed. -/
def Chan.send (c : Chan) (b : Byte) : Except Panic Chan :=
  if c.closed then .error .sendOnClosedChannel
  else .ok { c with queue := c.queue ++ [b] }

/-- The statement `close(c)`. -/
def Chan.close (c : Chan) : Except Panic Chan :=
  if c.closed then .error .closeOfClosedChannel
  else .ok { c with closed := true }

/-- The choice of a two-case `select`: the index of the case that runs, or
`none` when neither can proceed. When both can, the runtime takes the one it
polls first, `firstPolled0` telling whether that is case 0. -/
def selectgo (ready0 ready1 firstPolled0 : Bool) : Option (Fin 2) :=
  if ready0 && ready1 then (if firstPolled0 then some 0 else some 1)
  else if ready0 then some 0
  else if ready1 then some 1
  else none

/-- The shared state of a pipe. `done` is the `chan struct{}` that is only ever
closed, hence a flag: `true` once closed. -/
structure pipeChan where
  buf : Chan
  done : Bool
  reader : FID
  writer : FID
  deriving DecidableEq, Repr

def maxPipeBuffer : Nat := 32 <<< 10

def newPipeChan (reader writer : FID) : pipeChan :=
  { buf := Chan.make maxPipeBuffer, done := false, reader := reader, writer := writer }

/-- How a call ends: it returns `val` leaving the pipe as `p`; or it parks in
the `select` of `Read` with the pipe as `p` and the locals `buf`, `n`; or it
panics. -/
inductive Outcome (α : Type) where
  | returned (val : α) (p : pipeChan)
  | blocked (p : pipeChan) (buf : List Byte) (n : Nat)
  | panicked (e : Panic)
  deriving DecidableEq, Repr

def os.ModeNamedPipe : Nat := 1 <<< 25

structure pipeStat where
  name : String
  size : Int
  mode : Nat
  deriving DecidableEq, Repr

def pipeStat.Name (p : pipeStat) : String := p.name
def pipeStat.Size (p : pipeStat) : Int := p.size
def pipeStat.Mode (p : pipeStat) : Nat := p.mode
def pipeStat.IsDir (_p : pipeStat) : Bool := false

/-- `pipeChan.Stat`. The call `p.Name()` in its body is the method promoted
from the embedded `unimplementedFile`, which is declared outside the files at
hand: its result is the argument `unimplementedFileName`. -/
def pipeChan.Stat (p : pipeChan) (unimplementedFileName : String) :
    Outcome (pipeStat × Option Error) :=
  .returned
    ({ name := unimplementedFileName, size := Int.ofNat p.buf.len, mode := os.ModeNamedPipe },
      none) p

/-- The loop of `pipeChan.Read`, entered with `k = len(buf) - n` iterations
left before the guard `n < len(buf)` fails. `sched n` is the poll order of the
`select` run with `n` bytes copied. -/
def pipeChan.Read.loop (sched : Nat → Bool) :
    Nat → pipeChan → List Byte → Nat → Outcome (List Byte × Nat × Option Error)
  | 0, p, buf, n => .returned (buf, n, if n = 0 then some .EOF else none) p
  | k + 1, p, buf, n =>
    match selectgo p.done p.buf.recvReady (sched n) with
    | some 0 => .returned (buf, n, some .EOF) p
    | some 1 =>
      match p.buf.recv with
      | (_, false, _) => .returned (buf, n, some .EOF) p
      | (b, true, c) => pipeChan.Read.loop sched k { p with buf := c } (buf.set n b) (n + 1)
    | none => .blocked p buf n

/-- `pipeChan.Read`: the value returned is the buffer as the call leaves it,
`n` and `err`. -/
def pipeChan.Read (p : pipeChan) (buf : List Byte) (sched : Nat → Bool) :
    Outcome (List Byte × Nat × Option Error) :=
  pipeChan.Read.loop sched (buf.length - 0) p buf 0

/-- The loop of `pipeChan.Write` over the bytes `rest` not yet visited, `len`
being `len(buf)`. `sched n` is the poll order of the `select` run with `n`
bytes sent. -/
def pipeChan.Write.loop (sched : Nat → Bool) (len : Nat) :
    List Byte → pipeChan → Nat → Outcome (Nat × Option Error)
  | [], p, n => .returned (n, if n < len then some .ErrShortWrite else none) p
  | b :: rest, p, n =>
    match selectgo p.done p.buf.sendReady (sched n) with
    | some 0 => .returned (0, some (.BadFileNumber p.writer)) p
    | some 1 =>
      match p.buf.send b with
      | .error e => .panicked e
      | .ok c => pipeChan.Write.loop sched len rest { p with buf := c } (n + 1)
    | none => .returned (n, if n < len then some .ErrShortWrite else none) p

def pipeChan.Write (p : pipeChan) (buf : List Byte) (sched : Nat → Bool) :
    Outcome (Nat × Option Error) :=
  pipeChan.Write.loop sched buf.length buf p 0

/-- `pipeChan.Close`: a `select` with the single case `<-p.done` and a
`default`. -/
def pipeChan.Close (p : pipeChan) : Outcome (Option Error) :=
  if p.done then .returned (some (.BadFileNumber p.writer)) p
  else
    match p.buf.close with
    | .error e => .panicked e
    | .ok c => .returned none { p with done := true, buf := c }

/-- A `*pipeChan` with the FID of one end; `pipeChan` is the current value of
the shared object the pointer refers to. -/
structure namedPipe where
  pipeChan : pipeChan
  fid : FID
  deriving DecidableEq, Repr

structure pipeReadOnly where
  namedPipe : namedPipe
  deriving DecidableEq, Repr

structure pipeWriteOnly where
  namedPipe : namedPipe
  deriving DecidableEq, Repr

/-- `Read` of the read end is the promoted `pipeChan.Read`. -/
def pipeReadOnly.Read (r : pipeReadOnly) (buf : List Byte) (sched : Nat → Bool) :
    Outcome (List Byte × Nat × Option Error) :=
  r.namedPipe.pipeChan.Read buf sched

def pipeReadOnly.ReadAt (r : pipeReadOnly) (buf : List Byte) (off : Int) (sched : Nat → Bool) :
    Outcome (List Byte × Nat × Option Error) :=
  if off = 0 then r.Read buf sched
  else .returned (buf, 0, some .ErrNotImplemented) r.namedPipe.pipeChan

def pipeReadOnly.Write (r : pipeReadOnly) (_buf : List Byte) : Outcome (Nat × Option Error) :=
  .returned (0, some .ErrNotImplemented) r.namedPipe.pipeChan

def pipeReadOnly.Close (r : pipeReadOnly) : Outcome (Option Error) :=
  .returned none r.namedPipe.pipeChan

def pipeWriteOnly.Read (w : pipeWriteOnly) (buf : List Byte) :
    Outcome (List Byte × Nat × Option Error) :=
  .returned (buf, 0, some .ErrNotImplemented) w.namedPipe.pipeChan

/-- `Write` of the write end is the promoted `pipeChan.Write`. -/
def pipeWriteOnly.Write (w : pipeWriteOnly) (buf : List Byte) (sched : Nat → Bool) :
    Outcome (Nat × Option Error) :=
  w.namedPipe.pipeChan.Write buf sched

def pipeWriteOnly.WriteAt (w : pipeWriteOnly) (buf : List Byte) (off : Int)
    (sched : Nat → Bool) : Outcome (Nat × Option Error) :=
  if off = 0 then w.Write buf sched
  else .returned (0, some .ErrNotImplemented) w.namedPipe.pipeChan

/-- `Close` of the write end is the promoted `pipeChan.Close`. -/
def pipeWriteOnly.Close (w : pipeWriteOnly) : Outcome (Option Error) :=
  w.namedPipe.pipeChan.Close

/-- The bytes `bs` stored into `buf` from index `n` on, one `buf[n] = b` at a
time, as the loop of `Read` does. -/
def copyInto : List Byte → Nat → List Byte → List Byte
  | buf, _, [] => buf
  | buf, n, b :: bs => copyInto (buf.set n b) (n + 1) bs

/-- The pipe with the queue of its channel replaced. -/
def pipeChan.withQueue (p : pipeChan) (q : List Byte) : pipeChan :=
  { p with buf := { p.buf with queue := q } }

/-- The pipe is open: neither `done` nor `buf` has been closed. -/
def pipeChan.isOpen (p : pipeChan) : Prop := p.done = false ∧ p.buf.closed = false

instance (p : pipeChan) : Decidable p.isOpen := by
  unfold pipeChan.isOpen; infer_instance

/-- The read end `newPipe` builds around the shared pipe. -/
def readEnd (p : pipeChan) : pipeReadOnly :=
  { namedPipe := { pipeChan := p, fid := p.reader } }

/-- The write end `newPipe` builds around the shared pipe. -/
def writeEnd (p : pipeChan) : pipeWriteOnly :=
  { namedPipe := { pipeChan := p, fid := p.writer } }

/-- Successive `Write` calls on the write end, each with its buffer and the
poll orders of its selects: the values returned and the pipe left, or `none`
when a call does not return. -/
def writeCalls : pipeChan → List (List Byte × (Nat → Bool)) →
    Option (List (Nat × Option Error) × pipeChan)
  | p, [] => some ([], p)
  | p, (buf, sched) :: calls =>
    match (writeEnd p).Write buf sched with
    | .returned r p1 => (writeCalls p1 calls).map (fun res => (r :: res.1, res.2))
    | _ => none

/-- Successive `Read` calls on the read end, each with its buffer and the poll
orders of its selects: the values returned and the pipe left, or `none` when a
call does not return. -/
def readCalls : pipeChan → List (List Byte × (Nat → Bool)) →
    Option (List (List Byte × Nat × Option Error) × pipeChan)
  | p, [] => some ([], p)
  | p, (buf, sched) :: calls =>
    match (readEnd p).Read buf sched with
    | .returned r p1 => (readCalls p1 calls).map (fun res => (r :: res.1, res.2))
    | _ => none

/-- The poll order that always tries the `<-p.done` case first. -/
def caseDoneFirst : Nat → Bool := fun _ => true

/-- The poll order that always tries the case on `p.buf` first. -/
def caseBufFirst : Nat → Bool := fun _ => false

/-- The pipe once `close(p.done)` and `close(p.buf)` have run. -/
def pipeChan.afterClose (p : pipeChan) : pipeChan :=
  { p with done := true, buf := { p.buf with closed := true } }

/-- `Stat` of the read end is the promoted `pipeChan.Stat`. -/
def pipeReadOnly.Stat (r : pipeReadOnly) (unimplementedFileName : String) :
    Outcome (pipeStat × Option Error) :=
  r.namedPipe.pipeChan.Stat unimplementedFileName

/-- `Stat` of the write end is the promoted `pipeChan.Stat`. -/
def pipeWriteOnly.Stat (w : pipeWriteOnly) (unimplementedFileName : String) :
    Outcome (pipeStat × Option Error) :=
  w.namedPipe.pipeChan.Stat unimplementedFileName

/-- So many successive `Close` calls on the write end: the values returned and
the pipe left, or `none` when a call does not return. -/
def closeCalls : Nat → pipeChan → Option (List (Option Error) × pipeChan)
  | 0, p => some ([], p)
  | k + 1, p =>
    match (writeEnd p).Close with
    | .returned r p1 => (closeCalls k p1).map (fun res => (r :: res.1, res.2))
    | _ => none

/-- A call on one of the two ends of a pipe (`r`: read end, `w`: write end),
with its arguments and, where the method runs a `select`, the poll orders. -/
inductive Op where
  | rRead (buf : List Byte) (sched : Nat → Bool)
  | rReadAt (buf : List Byte) (off : Int) (sched : Nat → Bool)
  | rWrite (buf : List Byte)
  | rClose
  | rStat
  | wRead (buf : List Byte)
  | wWrite (buf : List Byte) (sched : Nat → Bool)
  | wWriteAt (buf : List Byte) (off : Int) (sched : Nat → Bool)
  | wClose
  | wStat

def Op.isReadEndClose : Op → Bool
  | .rClose => true
  | _ => false

/-- What a call is observed to do, by the kind of its result. -/
inductive Result where
  | read (o : Outcome (List Byte × Nat × Option Error))
  | write (o : Outcome (Nat × Option Error))
  | close (o : Outcome (Option Error))
  | stat (o : Outcome (pipeStat × Option Error))

/-- The pipe a call leaves to the next one; `none` when it parks or panics. -/
def Outcome.next {α : Type} : Outcome α → Option pipeChan
  | .returned _ p => some p
  | _ => none

def Result.next : Result → Option pipeChan
  | .read o => o.next
  | .write o => o.next
  | .close o => o.next
  | .stat o => o.next

/-- One call on the ends of the pipe whose shared state is `p`. -/
def Op.exec (name : String) (p : pipeChan) : Op → Result
  | .rRead buf sched => .read ((readEnd p).Read buf sched)
  | .rReadAt buf off sched => .read ((readEnd p).ReadAt buf off sched)
  | .rWrite buf => .write ((readEnd p).Write buf)
  | .rClose => .close (readEnd p).Close
  | .rStat => .stat ((readEnd p).Stat name)
  | .wRead buf => .read ((writeEnd p).Read buf)
  | .wWrite buf sched => .write ((writeEnd p).Write buf sched)
  | .wWriteAt buf off sched => .write ((writeEnd p).WriteAt buf off sched)
  | .wClose => .close (writeEnd p).Close
  | .wStat => .stat ((writeEnd p).Stat name)

/-- The calls `ops` made one after the other from the pipe `p`, each paired
with what it did; the run ends with the first call that parks or panics. -/
def run (name : String) : pipeChan → List Op → List (Op × Result)
  | _, [] => []
  | p, op :: ops =>
    (op, op.exec name p) ::
      match (op.exec name p).next with
      | some p1 => run name p1 ops
      | none => []

/-- `namedPipe.Name`. The display form `FID.String` is declared outside the
files at hand: it is the argument `fidString`. -/
def namedPipe.Name (fidString : FID → String) (n : namedPipe) : String :=
  "pipe" ++ fidString n.fid

/-- Process identifier. -/
abbrev PID := Nat

/-- The address of a `pipeChan` object: what a `*pipeChan` holds. -/
abbrev Ptr := Nat

/-- The `pipeChan` objects allocated so far; the address of an object is its
index. -/
structure Heap where
  chans : List pipeChan
  deriving DecidableEq, Repr

/-- The object a pointer refers to. -/
def Heap.load (h : Heap) (a : Ptr) : Option pipeChan := h.chans[a]?

/-- The object a pointer refers to, replaced. -/
def Heap.store (h : Heap) (a : Ptr) (c : pipeChan) : Heap :=
  { chans := h.chans.set a c }

/-- The expression `&pipeChan{...}`: the object is put at a fresh address. -/
def Heap.alloc (h : Heap) (c : pipeChan) : Ptr × Heap :=
  (h.chans.length, { chans := h.chans ++ [c] })

/-- The file behind a pipe descriptor, `&pipeReadOnly{&namedPipe{pipeChan, fid}}`
or `&pipeWriteOnly{&namedPipe{pipeChan, fid}}`, the field `pipeChan` being the
pointer. -/
inductive pipeFile where
  | readOnly (pipeChan : Ptr) (fid : FID)
  | writeOnly (pipeChan : Ptr) (fid : FID)
  deriving DecidableEq, Repr

/-- The read end a file is, around the current value of the object its pointer
refers to; `none` for a write end or a dangling pointer. -/
def pipeFile.asReadOnly (h : Heap) : pipeFile → Option pipeReadOnly
  | .readOnly a fid => (h.load a).map (fun c => { namedPipe := { pipeChan := c, fid := fid } })
  | .writeOnly _ _ => none

/-- The write end a file is, around the current value of the object its pointer
refers to; `none` for a read end or a dangling pointer. -/
def pipeFile.asWriteOnly (h : Heap) : pipeFile → Option pipeWriteOnly
  | .writeOnly a fid => (h.load a).map (fun c => { namedPipe := { pipeChan := c, fid := fid } })
  | .readOnly _ _ => none

/-- Modelled from the spec: `fileDescriptor` is declared outside the files at
hand. A descriptor is a handle combining a FID, a mode tag, the underlying
object, and an open status with the owning process set at open time
(`openedBy`, `none` while not open). -/
structure fileDescriptor where
  id : FID
  file : pipeFile
  mode : Nat
  openedBy : Option PID
  deriving DecidableEq, Repr

/-- Modelled from the spec: `newIrregularFileDescriptor` is declared outside the
files at hand. It makes the descriptor of the given FID, object and mode, not
yet open. -/
def newIrregularFileDescriptor (id : FID) (file : pipeFile) (mode : Nat) : fileDescriptor :=
  { id := id, file := file, mode := mode, openedBy := none }

/-- Modelled from the spec: `fileDescriptor.Open` is declared outside the files
at hand. It marks the descriptor as belonging to the open-file set of the
process `pid`. -/
def fileDescriptor.Open (d : fileDescriptor) (pid : PID) : fileDescriptor :=
  { d with openedBy := some pid }

/-- Modelled from the spec: `FileDescriptors` is declared outside the files at
hand. The descriptor table is a mapping from FID to descriptor together with a
generator of fresh FIDs, here the number of FIDs `issued` so far, and the
process the table belongs to. The descriptors are the objects the table points
to. -/
structure FileDescriptors where
  parentPID : PID
  issued : Nat
  files : FID → Option fileDescriptor

/-- Modelled from the spec: `FileDescriptors.newFID` is declared outside the
files at hand. `gen i` is the value of the `i`-th call of the generator. -/
def FileDescriptors.newFID (gen : Nat → FID) (f : FileDescriptors) : FID × FileDescriptors :=
  (gen f.issued, { f with issued := f.issued + 1 })

/-- Modelled from the spec: `FileDescriptors.addFileDescriptor` is declared
outside the files at hand. It registers the descriptor under its FID. -/
def FileDescriptors.addFileDescriptor (f : FileDescriptors) (d : fileDescriptor) :
    FileDescriptors :=
  { f with files := fun fid => if fid = d.id then some d else f.files fid }

/-- The call `d.Open(pid)` on the pointer the table holds under `fid`: the
object opened is the entry of the table. -/
def FileDescriptors.openAt (f : FileDescriptors) (fid : FID) (pid : PID) : FileDescriptors :=
  { f with files := fun k => if k = fid then (f.files k).map (fun d => d.Open pid)
                             else f.files k }

/-- `newPipe`: `newFID` is a function on the state `s` of the generator, its two
calls run left to right; `pipeC` is the address on the heap `h` of the object
`newPipeChan` makes, and both ends hold that one pointer. -/
def newPipe {σ : Type} (newFID : σ → FID × σ) (s : σ) (h : Heap) :
    (fileDescriptor × fileDescriptor) × σ × Heap :=
  let readerFID := (newFID s).1
  let writerFID := (newFID (newFID s).2).1
  let pipeC := h.alloc (newPipeChan readerFID writerFID)
  let r := newIrregularFileDescriptor readerFID (.readOnly pipeC.1 readerFID) os.ModeNamedPipe
  let w := newIrregularFileDescriptor writerFID (.writeOnly pipeC.1 writerFID) os.ModeNamedPipe
  ((r, w), (newFID (newFID s).2).2, pipeC.2)

/-- `FileDescriptors.Pipe`: the FIDs returned, the table left and the heap
left. -/
def FileDescriptors.Pipe (gen : Nat → FID) (f : FileDescriptors) (h : Heap) :
    (FID × FID) × FileDescriptors × Heap :=
  let made := newPipe (FileDescriptors.newFID gen) f h
  let r := made.1.1
  let w := made.1.2
  let f1 := made.2.1.addFileDescriptor r
  let f2 := f1.addFileDescriptor w
  let f3 := f2.openAt r.id f.parentPID
  let f4 := f3.openAt w.id f.parentPID
  ((r.id, w.id), f4, made.2.2)

def Op.isWriteEndClose : Op → Bool
  | .wClose => true
  | _ => false

def Op.isWriteEndWrite : Op → Bool
  | .wWrite _ _ => true
  | .wWriteAt _ _ _ => true
  | _ => false

/-- The pipe as a call leaves it, also when the call parks; `none` when it
panics. -/
def Outcome.state {α : Type} : Outcome α → Option pipeChan
  | .returned _ p => some p
  | .blocked p _ _ => some p
  | .panicked _ => none

def Result.state : Result → Option pipeChan
  | .read o => o.state
  | .write o => o.state
  | .close o => o.state
  | .stat o => o.state

/-- The heap once a call has ended: the object at `a` is as the call left it. -/
def Heap.after {α : Type} (h : Heap) (a : Ptr) (out : Outcome α) : Heap :=
  match out.state with
  | some c => h.store a c
  | none => h

/-- The call `file.Write(buf)` on a file of the heap: what the call does and the
heap it leaves; `none` for a dangling pointer. -/
def pipeFile.Write (file : pipeFile) (h : Heap) (buf : List Byte) (sched : Nat → Bool) :
    Option (Outcome (Nat × Option Error) × Heap) :=
  match file with
  | .writeOnly a fid =>
    (h.load a).map (fun c =>
      ((pipeWriteOnly.Write { namedPipe := { pipeChan := c, fid := fid } } buf sched),
        h.after a (pipeWriteOnly.Write { namedPipe := { pipeChan := c, fid := fid } } buf sched)))
  | .readOnly a fid =>
    (h.load a).map (fun c =>
      ((pipeReadOnly.Write { namedPipe := { pipeChan := c, fid := fid } } buf),
        h.after a (pipeReadOnly.Write { namedPipe := { pipeChan := c, fid := fid } } buf)))

/-- The call `file.Read(buf)` on a file of the heap: what the call does and the
heap it leaves; `none` for a dangling pointer. -/
def pipeFile.Read (file : pipeFile) (h : Heap) (buf : List Byte) (sched : Nat → Bool) :
    Option (Outcome (List Byte × Nat × Option Error) × Heap) :=
  match file with
  | .readOnly a fid =>
    (h.load a).map (fun c =>
      ((pipeReadOnly.Read { namedPipe := { pipeChan := c, fid := fid } } buf sched),
        h.after a (pipeReadOnly.Read { namedPipe := { pipeChan := c, fid := fid } } buf sched)))
  | .writeOnly a fid =>
    (h.load a).map (fun c =>
      ((pipeWriteOnly.Read { namedPipe := { pipeChan := c, fid := fid } } buf),
        h.after a (pipeWriteOnly.Read { namedPipe := { pipeChan := c, fid := fid } } buf)))

/-- The number of iterations of the loop of `pipeChan.Read` that are entered,
by the same case analysis as `pipeChan.Read.loop`. -/
def pipeChan.Read.iterations (sched : Nat → Bool) : Nat → pipeChan → Nat → Nat
  | 0, _, _ => 0
  | k + 1, p, n =>
    match selectgo p.done p.buf.recvReady (sched n) with
    | some 0 => 1
    | some 1 =>
      match p.buf.recv with
      | (_, false, _) => 1
      | (_, true, c) => 1 + pipeChan.Read.iterations sched k { p with buf := c } (n + 1)
    | none => 1

/-- The invariant of a pipe made by `newPipeChan`: the capacity is 32 KiB, the
queue holds no more than that, and `buf` is closed exactly when `done` is. -/
def pipeChan.wellFormed (p : pipeChan) : Prop :=
  p.buf.cap = 32768 ∧ p.buf.queue.length ≤ 32768 ∧ p.buf.closed = p.done

def Op.isReadEndRead : Op → Bool
  | .rRead _ _ => true
  | .rReadAt _ _ _ => true
  | _ => false

/-- The pipe the calls `ops`, made one after the other from `p`, leave; `none`
when one of them parks or panics. -/
def runState (name : String) : pipeChan → List Op → Option pipeChan
  | p, [] => some p
  | p, op :: ops =>
    match (op.exec name p).next with
    | some p1 => runState name p1 ops
    | none => none

/-- A call of `Read` followed through its parks, from the point where `n` bytes
are copied: each time the call parks in its select, other goroutines make the
calls of the next entry of `envs` on the pipe, and the select is run again on
the pipe they leave. With no entry left (or when those calls do not all
return) the call stays parked. -/
def pipeChan.Read.through (name : String) (sched : Nat → Bool) :
    List (List Op) → pipeChan → List Byte → Nat → Outcome (List Byte × Nat × Option Error)
  | [], p, buf, n => pipeChan.Read.loop sched (buf.length - n) p buf n
  | env :: envs, p, buf, n =>
    match pipeChan.Read.loop sched (buf.length - n) p buf n with
    | .blocked p1 buf1 n1 =>
      match runState name p1 env with
      | some p2 => pipeChan.Read.through name sched envs p2 buf1 n1
      | none => .blocked p1 buf1 n1
    | out => out

/-! ## Properties -/

theorem withQueue_self (p : pipeChan) : p.withQueue p.buf.queue = p := rfl

theorem withQueue_isOpen {p : pipeChan} (h : p.isOpen) (q : List Byte) :
    (p.withQueue q).isOpen := h

theorem write_loop_open (sched : Nat → Bool) (len : Nat) (bs : List Byte) :
    ∀ (p : pipeChan) (n : Nat), p.isOpen →
      pipeChan.Write.loop sched len bs p n =
        .returned
          (n + min bs.length (p.buf.cap - p.buf.queue.length),
            if n + min bs.length (p.buf.cap - p.buf.queue.length) < len
              then some .ErrShortWrite else none)
          (p.withQueue (p.buf.queue ++ bs.take (p.buf.cap - p.buf.queue.length))) := by
  induction bs with
  | nil => intro p n _; simp [pipeChan.Write.loop, pipeChan.withQueue]
  | cons b rest ih =>
    intro p n h
    obtain ⟨⟨q, cap, cl⟩, d, r, w⟩ := p
    obtain ⟨hd, hc⟩ := h
    simp only at hd hc
    subst hd hc
    by_cases hroom : q.length < cap
    · obtain ⟨m, hm⟩ : ∃ m, cap - q.length = m + 1 := ⟨cap - q.length - 1, by omega⟩
      have hm2 : cap - (q.length + ([] : List Byte).length + 1) = m := by
        simp only [List.length_nil]; omega
      have e : n + 1 + min rest.length m = n + min (rest.length + 1) (m + 1) := by omega
      simp only [pipeChan.Write.loop, selectgo, Chan.sendReady, Chan.send, hroom,
        decide_True, Bool.false_or, Bool.false_and, Bool.false_eq_true, if_false, if_true]
      rw [ih _ (n + 1) ⟨rfl, rfl⟩]
      simp only [List.length_append, List.length_cons, List.length_nil, Nat.zero_add, hm,
        List.take_succ_cons, pipeChan.withQueue, List.append_assoc, List.singleton_append]
      simp only [List.length_nil, Nat.add_zero] at hm2
      rw [show cap - (q.length + 1) = m from hm2, e]
    · have hz : cap - q.length = 0 := by omega
      simp [pipeChan.Write.loop, selectgo, Chan.sendReady, hroom, hz, pipeChan.withQueue]

theorem copyInto_length (bs : List Byte) : ∀ (buf : List Byte) (n : Nat),
    (copyInto buf n bs).length = buf.length := by
  induction bs with
  | nil => intro buf n; rfl
  | cons b bs ih => intro buf n; simp [copyInto, ih]

theorem copyInto_eq (bs : List Byte) : ∀ (buf : List Byte) (n : Nat),
    n + bs.length ≤ buf.length →
      copyInto buf n bs = buf.take n ++ bs ++ buf.drop (n + bs.length) := by
  induction bs with
  | nil => intro buf n _; simp [copyInto]
  | cons b bs ih =>
    intro buf n h
    simp only [List.length_cons] at h
    have hn : n < buf.length := by omega
    rw [copyInto, ih _ _ (by simp; omega)]
    have hlen : (buf.take n).length = n := by simp; omega
    have hset : buf.set n b = buf.take n ++ b :: buf.drop (n + 1) :=
      List.set_eq_take_cons_drop b hn
    have h1 : (buf.set n b).take (n + 1) = buf.take n ++ [b] := by
      rw [hset, List.take_append_eq_append_take, hlen]
      simp
    have h2 : (buf.set n b).drop (n + 1 + bs.length) = buf.drop (n + (bs.length + 1)) := by
      rw [List.drop_set_of_lt _ _ (by omega)]
      congr 1; omega
    rw [h1, h2]
    simp
theorem read_loop_open (sched : Nat → Bool) (k : Nat) :
    ∀ (p : pipeChan) (buf : List Byte) (n : Nat), p.isOpen →
      pipeChan.Read.loop sched k p buf n =
        if k ≤ p.buf.queue.length then
          .returned
            (copyInto buf n (p.buf.queue.take k), n + k, if n + k = 0 then some .EOF else none)
            (p.withQueue (p.buf.queue.drop k))
        else .blocked (p.withQueue []) (copyInto buf n p.buf.queue) (n + p.buf.queue.length) := by
  induction k with
  | zero => intro p buf n _; simp [pipeChan.Read.loop, copyInto, pipeChan.withQueue]
  | succ k ih =>
    intro p buf n h
    obtain ⟨⟨q, cap, cl⟩, d, r, w⟩ := p
    obtain ⟨hd, hc⟩ := h
    simp only at hd hc
    subst hd hc
    cases q with
    | nil => simp [pipeChan.Read.loop, selectgo, Chan.recvReady, copyInto, pipeChan.withQueue]
    | cons b rest =>
      simp only [pipeChan.Read.loop, selectgo, Chan.recvReady, Chan.recv, List.isEmpty_cons,
        Bool.not_false, Bool.true_or, Bool.false_and, Bool.false_eq_true, if_false, if_true]
      rw [ih _ _ _ ⟨rfl, rfl⟩]
      by_cases hk : k ≤ rest.length
      · simp [hk, copyInto, pipeChan.withQueue, Nat.add_assoc, Nat.add_comm 1 k]
      · simp [hk, copyInto, pipeChan.withQueue, Nat.add_assoc, Nat.add_comm 1 rest.length]

theorem write_open (p : pipeChan) (buf : List Byte) (sched : Nat → Bool) (h : p.isOpen) :
    p.Write buf sched =
      .returned
        (min buf.length (p.buf.cap - p.buf.queue.length),
          if min buf.length (p.buf.cap - p.buf.queue.length) < buf.length
            then some .ErrShortWrite else none)
        (p.withQueue (p.buf.queue ++ buf.take (p.buf.cap - p.buf.queue.length))) := by
  unfold pipeChan.Write
  rw [write_loop_open sched buf.length buf p 0 h]
  simp

theorem write_open_fits (p : pipeChan) (buf : List Byte) (sched : Nat → Bool) (h : p.isOpen)
    (hfit : p.buf.queue.length + buf.length ≤ p.buf.cap) :
    p.Write buf sched = .returned (buf.length, none) (p.withQueue (p.buf.queue ++ buf)) := by
  rw [write_open p buf sched h]
  have h1 : min buf.length (p.buf.cap - p.buf.queue.length) = buf.length := by omega
  have h2 : buf.take (p.buf.cap - p.buf.queue.length) = buf :=
    List.take_of_length_le (by omega)
  rw [h1, h2]
  simp

theorem read_open (p : pipeChan) (buf : List Byte) (sched : Nat → Bool) (h : p.isOpen) :
    p.Read buf sched =
      if buf.length ≤ p.buf.queue.length then
        .returned
          (p.buf.queue.take buf.length, buf.length,
            if buf.length = 0 then some .EOF else none)
          (p.withQueue (p.buf.queue.drop buf.length))
      else
        .blocked (p.withQueue []) (p.buf.queue ++ buf.drop p.buf.queue.length)
          p.buf.queue.length := by
  unfold pipeChan.Read
  rw [Nat.sub_zero, read_loop_open sched buf.length p buf 0 h]
  by_cases hk : buf.length ≤ p.buf.queue.length
  · rw [if_pos hk, if_pos hk,
      copyInto_eq _ _ _ (by simp only [Nat.zero_add, List.length_take]; omega)]
    simp [Nat.min_eq_left hk]
  · rw [if_neg hk, if_neg hk, copyInto_eq _ _ _ (by simp only [Nat.zero_add]; omega)]
    simp

theorem writeCalls_open (ws : List (List Byte × (Nat → Bool))) :
    ∀ p : pipeChan, p.isOpen →
      p.buf.queue.length + (ws.map Prod.fst).flatten.length ≤ p.buf.cap →
      writeCalls p ws =
        some (ws.map (fun c => (c.1.length, none)),
          p.withQueue (p.buf.queue ++ (ws.map Prod.fst).flatten)) := by
  induction ws with
  | nil => intro p _ _; simp [writeCalls, pipeChan.withQueue]
  | cons c calls ih =>
    intro p h hfit
    obtain ⟨buf, sched⟩ := c
    simp only [List.map_cons, List.flatten_cons, List.length_append] at hfit
    have hw : (writeEnd p).Write buf sched =
        .returned (buf.length, none) (p.withQueue (p.buf.queue ++ buf)) :=
      write_open_fits p buf sched h (by omega)
    have hnext := ih (p.withQueue (p.buf.queue ++ buf)) (withQueue_isOpen h _)
      (by simp only [pipeChan.withQueue, List.length_append]; omega)
    simp only [writeCalls, hw, hnext]
    simp [pipeChan.withQueue]

theorem readCalls_open (rs : List (List Byte × (Nat → Bool))) :
    ∀ p : pipeChan, p.isOpen → (∀ c ∈ rs, 0 < c.1.length) →
      (rs.map (fun c => c.1.length)).sum ≤ p.buf.queue.length →
      ∃ outs, readCalls p rs =
          some (outs, p.withQueue (p.buf.queue.drop (rs.map (fun c => c.1.length)).sum)) ∧
        (outs.map (fun o => o.1.take o.2.1)).flatten =
          p.buf.queue.take (rs.map (fun c => c.1.length)).sum ∧
        outs.map (fun o => o.2) = rs.map (fun c => (c.1.length, none)) := by
  induction rs with
  | nil => intro p _ _ _; exact ⟨[], by simp [readCalls, pipeChan.withQueue]⟩
  | cons c calls ih =>
    intro p h hpos hsum
    obtain ⟨buf, sched⟩ := c
    simp only [List.map_cons, List.sum_cons] at hsum
    have hlen : 0 < buf.length := hpos (buf, sched) (List.mem_cons_self _ _)
    have hr : (readEnd p).Read buf sched =
        .returned (p.buf.queue.take buf.length, buf.length, none)
          (p.withQueue (p.buf.queue.drop buf.length)) := by
      show p.Read buf sched = _
      rw [read_open p buf sched h, if_pos (by omega), if_neg (by omega)]
    obtain ⟨outs, hcalls, hbytes, hrets⟩ :=
      ih (p.withQueue (p.buf.queue.drop buf.length)) (withQueue_isOpen h _)
        (fun c hc => hpos c (List.mem_cons_of_mem _ hc))
        (by simp only [pipeChan.withQueue, List.length_drop]; omega)
    refine ⟨(p.buf.queue.take buf.length, buf.length, none) :: outs, ?_, ?_, ?_⟩
    · simp only [readCalls, hr, hcalls]
      simp [pipeChan.withQueue, Nat.add_comm]
    · simp only [List.map_cons, List.flatten_cons, hbytes, List.sum_cons]
      simp only [pipeChan.withQueue, List.take_take, Nat.min_self]
      rw [List.take_add]
    · simp [hrets]

/-- C1. FIFO round trip: the bytes written to the write end of a fresh pipe in
any number of `Write` calls, at most 32768 in all, come back in the same order
from `Read` calls on the read end whose buffers are non-empty and have that
total length; every `Write` takes its whole buffer, every `Read` fills its
buffer and reports no error, whatever the poll orders. -/
theorem fifo_round_trip (reader writer : FID) (ws rs : List (List Byte × (Nat → Bool)))
    (hcap : (ws.map Prod.fst).flatten.length ≤ 32768)
    (hpos : ∀ c ∈ rs, 0 < c.1.length)
    (hsum : (rs.map (fun c => c.1.length)).sum = (ws.map Prod.fst).flatten.length) :
    ∃ p1 outs p2,
      writeCalls (newPipeChan reader writer) ws =
        some (ws.map (fun c => (c.1.length, none)), p1) ∧
      readCalls p1 rs = some (outs, p2) ∧
      (outs.map (fun o => o.1.take o.2.1)).flatten = (ws.map Prod.fst).flatten ∧
      outs.map (fun o => o.2) = rs.map (fun c => (c.1.length, none)) ∧
      p2.buf.queue = [] := by
  have hopen : (newPipeChan reader writer).isOpen := ⟨rfl, rfl⟩
  have hw := writeCalls_open ws (newPipeChan reader writer) hopen
    (by simpa [newPipeChan, Chan.make, maxPipeBuffer] using hcap)
  have hq : ((newPipeChan reader writer).withQueue
      ((newPipeChan reader writer).buf.queue ++ (ws.map Prod.fst).flatten)).buf.queue =
      (ws.map Prod.fst).flatten := by
    simp [newPipeChan, Chan.make, pipeChan.withQueue]
  obtain ⟨outs, hcalls, hbytes, hrets⟩ :=
    readCalls_open rs _ (withQueue_isOpen hopen _) hpos (by rw [hq]; omega)
  refine ⟨_, outs, _, hw, hcalls, ?_, hrets, ?_⟩
  · rw [hbytes, hq, hsum, List.take_length]
  · rw [hq, hsum]
    simp [pipeChan.withQueue]

/-- C1, on the pipe 3/4: `[1,2,3]` is written, a read of 2 gives `[1,2]`, a
read of 1 gives `[3]`. -/
theorem fifo_round_trip_witness :
    (∃ p1,
      writeCalls (newPipeChan 3 4) [(([1, 2, 3] : List Byte), caseDoneFirst)] = some ([(3, none)], p1) ∧
      ∃ p2, readCalls p1 [(([0, 0] : List Byte), caseDoneFirst), (([0] : List Byte), caseBufFirst)] =
        some ([([1, 2], 2, none), ([3], 1, none)], p2)) ∧
    ∃ p1 outs p2,
      writeCalls (newPipeChan 3 4) [(([1, 2, 3] : List Byte), caseDoneFirst)] =
        some ([(([1, 2, 3] : List Byte), caseDoneFirst)].map (fun c => (c.1.length, none)), p1) ∧
      readCalls p1 [(([0, 0] : List Byte), caseDoneFirst), (([0] : List Byte), caseBufFirst)] = some (outs, p2) ∧
      (outs.map (fun o => o.1.take o.2.1)).flatten =
        ([(([1, 2, 3] : List Byte), caseDoneFirst)].map Prod.fst).flatten ∧
      outs.map (fun o => o.2) =
        [(([0, 0] : List Byte), caseDoneFirst), (([0] : List Byte), caseBufFirst)].map (fun c => (c.1.length, none)) ∧
      p2.buf.queue = [] :=
  ⟨⟨_, rfl, _, rfl⟩,
    fifo_round_trip 3 4 [(([1, 2, 3] : List Byte), caseDoneFirst)]
      [(([0, 0] : List Byte), caseDoneFirst), (([0] : List Byte), caseBufFirst)] (by decide) (by simp) (by decide)⟩

/-- C2. Short write: on an open pipe whose queue of capacity `N` holds `q`
bytes, a `Write` of more than `N - q` bytes returns `N - q` with
`io.ErrShortWrite` and leaves the old queue followed by the first `N - q` bytes
of the buffer, nothing of the rest; a fresh pipe has `N = 32768`, so that
`N + 5` bytes written to it give exactly `N` with the short-write error. -/
theorem short_write (p : pipeChan) (buf : List Byte) (sched : Nat → Bool) (hopen : p.isOpen)
    (hlong : p.buf.cap - p.buf.queue.length < buf.length) :
    p.Write buf sched =
        .returned (p.buf.cap - p.buf.queue.length, some .ErrShortWrite)
          (p.withQueue (p.buf.queue ++ buf.take (p.buf.cap - p.buf.queue.length))) ∧
      ∀ (reader writer : FID) (big : List Byte), big.length = 32768 + 5 →
        (newPipeChan reader writer).buf.cap = 32768 ∧
        (newPipeChan reader writer).Write big sched =
          .returned (32768, some .ErrShortWrite)
            ((newPipeChan reader writer).withQueue (big.take 32768)) := by
  constructor
  · rw [write_open p buf sched hopen,
      show min buf.length (p.buf.cap - p.buf.queue.length) = p.buf.cap - p.buf.queue.length
        by omega, if_pos hlong]
  · intro reader writer big hbig
    refine ⟨rfl, ?_⟩
    rw [write_open _ big sched ⟨rfl, rfl⟩]
    simp [newPipeChan, Chan.make, maxPipeBuffer, hbig]

/-- C2, on a fresh pipe and a buffer of `32768 + 5` bytes. -/
theorem short_write_witness :
    (newPipeChan 3 4).isOpen ∧
    (newPipeChan 3 4).buf.cap - (newPipeChan 3 4).buf.queue.length <
      (List.replicate 32773 (0 : Byte)).length ∧
    (newPipeChan 3 4).Write (List.replicate 32773 0) caseBufFirst =
      .returned ((newPipeChan 3 4).buf.cap - (newPipeChan 3 4).buf.queue.length,
          some .ErrShortWrite)
        ((newPipeChan 3 4).withQueue ((newPipeChan 3 4).buf.queue ++
          (List.replicate 32773 (0 : Byte)).take
            ((newPipeChan 3 4).buf.cap - (newPipeChan 3 4).buf.queue.length))) :=
  ⟨⟨rfl, rfl⟩, by rw [List.length_replicate]; decide,
    (short_write (newPipeChan 3 4) (List.replicate 32773 0) caseBufFirst ⟨rfl, rfl⟩
      (by rw [List.length_replicate]; decide)).1⟩

/-- C3. After `Close` has succeeded on the pipe 3/4, a `Write` of `[1]` whose
select polls the send on `p.buf` first panics (send on closed channel); polled
the other way round it returns 0 with the bad-file-descriptor error of the
writer; a `Write` of the empty buffer returns 0 with no error at all. -/
theorem write_after_close_diverges :
    (writeEnd (newPipeChan 3 4)).Close = .returned none (newPipeChan 3 4).afterClose ∧
    (writeEnd (newPipeChan 3 4).afterClose).Write [1] caseBufFirst =
      .panicked .sendOnClosedChannel ∧
    (writeEnd (newPipeChan 3 4).afterClose).Write [1] caseDoneFirst =
      .returned (0, some (.BadFileNumber 4)) (newPipeChan 3 4).afterClose ∧
    (writeEnd (newPipeChan 3 4).afterClose).Write [] caseDoneFirst =
      .returned (0, none) (newPipeChan 3 4).afterClose := by
  refine ⟨rfl, rfl, rfl, rfl⟩

theorem close_open (p : pipeChan) (h : p.isOpen) :
    p.Close = .returned none p.afterClose := by
  obtain ⟨⟨q, cap, cl⟩, d, r, w⟩ := p
  obtain ⟨hd, hc⟩ := h
  simp only at hd hc
  subst hd hc
  rfl

theorem close_done (p : pipeChan) (h : p.done = true) :
    p.Close = .returned (some (.BadFileNumber p.writer)) p := by
  simp [pipeChan.Close, h]

theorem closeCalls_done (k : Nat) (p : pipeChan) (h : p.done = true) :
    closeCalls k p = some (List.replicate k (some (.BadFileNumber p.writer)), p) := by
  induction k with
  | zero => rfl
  | succ k ih =>
    have hc : (writeEnd p).Close = .returned (some (.BadFileNumber p.writer)) p :=
      close_done p h
    simp only [closeCalls, hc, ih]
    rfl

/-- C4. Close is exactly-once: on an open pipe `Close` of the write end returns
no error and leaves the pipe closed; on a pipe already closed it returns the
bad-file-descriptor error of the writer and changes nothing; so of `k ≥ 2`
successive calls the first succeeds and each of the others fails. -/
theorem close_exactly_once (p : pipeChan) (hopen : p.isOpen) (k : Nat) (hk : 2 ≤ k) :
    ((writeEnd p).Close = .returned none p.afterClose ∧ p.afterClose.done = true ∧
      p.afterClose.buf.queue = p.buf.queue) ∧
    (∀ c : pipeChan, c.done = true →
      (writeEnd c).Close = .returned (some (.BadFileNumber c.writer)) c) ∧
    closeCalls k p =
      some (none :: List.replicate (k - 1) (some (.BadFileNumber p.writer)), p.afterClose) ∧
    (none :: List.replicate (k - 1) (some (Error.BadFileNumber p.writer)))[k - 1]? =
      some (some (.BadFileNumber p.writer)) := by
  have h1 : (writeEnd p).Close = .returned none p.afterClose := close_open p hopen
  obtain ⟨j, rfl⟩ : ∃ j, k = j + 2 := ⟨k - 2, by omega⟩
  refine ⟨⟨h1, rfl, rfl⟩, fun c hc => close_done c hc, ?_, ?_⟩
  · have h2 := closeCalls_done (j + 1) p.afterClose rfl
    simp only [closeCalls, h1] at h2 ⊢
    simp only [h2]
    rfl
  · simp [List.getElem?_replicate]

/-- C4, on a fresh pipe closed three times. -/
theorem close_exactly_once_witness :
    (newPipeChan 3 4).isOpen ∧ 2 ≤ 3 ∧
    closeCalls 3 (newPipeChan 3 4) =
      some ([none, some (.BadFileNumber 4), some (.BadFileNumber 4)],
        (newPipeChan 3 4).afterClose) :=
  ⟨⟨rfl, rfl⟩, by decide,
    (close_exactly_once (newPipeChan 3 4) ⟨rfl, rfl⟩ 3 (by decide)).2.2.1⟩

theorem run_cons_readEndClose (name : String) (p : pipeChan) (ops : List Op) :
    run name p (Op.rClose :: ops) =
      (Op.rClose, Result.close (.returned none p)) :: run name p ops := rfl

/-- C5. `Close` of the read end returns no error and leaves the shared pipe as
it was; and in any run of calls on the two ends, taking the read-end `Close`
calls out takes their entries out of the run and changes nothing else: every
other call, the `Write` and `Close` of the write end among them, gives the same
result and leaves the same pipe. -/
theorem read_end_close_noop (r : pipeReadOnly) (name : String) (p : pipeChan)
    (ops : List Op) :
    r.Close = .returned none r.namedPipe.pipeChan ∧
    run name p (ops.filter (fun op => !op.isReadEndClose)) =
      (run name p ops).filter (fun e => !e.1.isReadEndClose) := by
  refine ⟨rfl, ?_⟩
  induction ops generalizing p with
  | nil => rfl
  | cons op ops ih =>
    by_cases hop : op.isReadEndClose = true
    · have hrc : op = Op.rClose := by
        cases op <;> simp [Op.isReadEndClose] at hop ⊢
      subst hrc
      rw [run_cons_readEndClose]
      simp only [List.filter_cons, Op.isReadEndClose, Bool.not_true, Bool.false_eq_true,
        if_false]
      exact ih p
    · simp only [Bool.not_eq_true] at hop
      simp only [List.filter_cons, hop, Bool.not_false, if_true, run]
      cases hnext : (op.exec name p).next with
      | none => simp
      | some p1 => simp [ih p1]

/-- C6, as stated, fails: the open pipe 3/4 holds the one byte `7` and `Read`
is given a buffer of two; the byte is copied, then no case of the select can
proceed and the call parks instead of returning with `n = 1`. -/
theorem read_returns_available_counterexample :
    ((newPipeChan 3 4).withQueue [7]).isOpen ∧
    ((newPipeChan 3 4).withQueue [7]).Read [0, 0] caseDoneFirst =
      .blocked (newPipeChan 3 4) [7, 0] 1 ∧
    ¬ ∃ out p1, ((newPipeChan 3 4).withQueue [7]).Read [0, 0] caseDoneFirst =
      .returned out p1 := by
  refine ⟨⟨rfl, rfl⟩, rfl, ?_⟩
  rintro ⟨out, p1, h⟩
  have hb : ((newPipeChan 3 4).withQueue [7]).Read [0, 0] caseDoneFirst =
      .blocked (newPipeChan 3 4) [7, 0] 1 := rfl
  rw [hb] at h
  cases h

/-- C6, amended. On an open pipe holding `k` bytes, `Read` with a buffer of
more than `k ≥ 1` bytes copies those `k` bytes to the front of the buffer,
empties the queue and parks in its select with `n = k`, whatever the poll
orders: it does not return. -/
theorem read_waits_for_full_buffer (p : pipeChan) (buf : List Byte) (sched : Nat → Bool)
    (hopen : p.isOpen) (_hk : 1 ≤ p.buf.queue.length)
    (hlong : p.buf.queue.length < buf.length) :
    p.Read buf sched =
        .blocked (p.withQueue []) (p.buf.queue ++ buf.drop p.buf.queue.length)
          p.buf.queue.length ∧
      ¬ ∃ out p1, p.Read buf sched = .returned out p1 := by
  have h := read_open p buf sched hopen
  rw [if_neg (by omega)] at h
  refine ⟨h, ?_⟩
  rintro ⟨out, p1, h1⟩
  rw [h] at h1
  cases h1

/-- C6 amended, on the open pipe 3/4 holding `[7]` and a buffer of two. -/
theorem read_waits_for_full_buffer_witness :
    ((newPipeChan 3 4).withQueue [7]).isOpen ∧
    1 ≤ ((newPipeChan 3 4).withQueue [7]).buf.queue.length ∧
    ((newPipeChan 3 4).withQueue [7]).buf.queue.length < ([0, 0] : List Byte).length ∧
    ((newPipeChan 3 4).withQueue [7]).Read [0, 0] caseBufFirst =
      .blocked (((newPipeChan 3 4).withQueue [7]).withQueue [])
        (((newPipeChan 3 4).withQueue [7]).buf.queue ++
          ([0, 0] : List Byte).drop ((newPipeChan 3 4).withQueue [7]).buf.queue.length)
        ((newPipeChan 3 4).withQueue [7]).buf.queue.length :=
  ⟨⟨rfl, rfl⟩, by decide, by decide,
    (read_waits_for_full_buffer ((newPipeChan 3 4).withQueue [7]) [0, 0] caseBufFirst
      ⟨rfl, rfl⟩ (by decide) (by decide)).1⟩

/-- C7. End-of-stream after close and drain: on a pipe that is closed and whose
queue is empty, `Read` with a non-empty buffer returns `n = 0` with `io.EOF`,
the buffer and the pipe as they were, whichever ready case of the select is
taken. -/
theorem eof_after_close_and_drain (p : pipeChan) (buf : List Byte) (sched : Nat → Bool)
    (hdone : p.done = true) (hempty : p.buf.queue = []) (hbuf : buf ≠ []) :
    p.Read buf sched = .returned (buf, 0, some .EOF) p := by
  obtain ⟨⟨q, cap, cl⟩, d, r, w⟩ := p
  simp only at hdone hempty
  subst hdone hempty
  cases buf with
  | nil => exact absurd rfl hbuf
  | cons b rest =>
    cases cl <;> cases hs : sched 0 <;>
      simp [pipeChan.Read, pipeChan.Read.loop, selectgo, Chan.recvReady, Chan.recv, hs]

/-- C7, on the scenario: `[1,2,3]` is written to the pipe 3/4, a read of 2 gives
`[1,2]`, a read of 1 gives `[3]`, the write end is closed, and the next read
gives zero bytes with end-of-stream. -/
theorem eof_after_close_and_drain_witness :
    (newPipeChan 3 4).Write [1, 2, 3] caseBufFirst =
      .returned (3, none) ((newPipeChan 3 4).withQueue [1, 2, 3]) ∧
    ((newPipeChan 3 4).withQueue [1, 2, 3]).Read [0, 0] caseBufFirst =
      .returned ([1, 2], 2, none) ((newPipeChan 3 4).withQueue [3]) ∧
    ((newPipeChan 3 4).withQueue [3]).Read [0] caseBufFirst =
      .returned ([3], 1, none) (newPipeChan 3 4) ∧
    (newPipeChan 3 4).Close = .returned none (newPipeChan 3 4).afterClose ∧
    (newPipeChan 3 4).afterClose.done = true ∧
    (newPipeChan 3 4).afterClose.buf.queue = [] ∧
    ([0] : List Byte) ≠ [] ∧
    (newPipeChan 3 4).afterClose.Read [0] caseBufFirst =
      .returned ([0], 0, some .EOF) (newPipeChan 3 4).afterClose :=
  ⟨rfl, rfl, rfl, rfl, rfl, rfl, by decide,
    eof_after_close_and_drain (newPipeChan 3 4).afterClose [0] caseBufFirst rfl rfl
      (by decide)⟩

/-- C8. Directional restriction: `Write` on the read end and `Read` on the
write end return 0 with `ErrNotImplemented` and leave the shared pipe (queue
and closed flags) and the buffer as they were; that error is not a
bad-file-descriptor error. -/
theorem directional_restriction (r : pipeReadOnly) (w : pipeWriteOnly) (buf : List Byte) :
    r.Write buf = .returned (0, some .ErrNotImplemented) r.namedPipe.pipeChan ∧
    w.Read buf = .returned (buf, 0, some .ErrNotImplemented) w.namedPipe.pipeChan ∧
    ∀ fid : FID, Error.ErrNotImplemented ≠ Error.BadFileNumber fid := by
  refine ⟨rfl, rfl, ?_⟩
  intro fid h
  cases h

/-- C9. Positioned operations: at offset 0, `ReadAt` of the read end is its
`Read` and `WriteAt` of the write end is its `Write` (same result, same pipe
left); at any other offset, negative ones included, both return 0 with
`ErrNotImplemented` and leave the pipe as it was. -/
theorem positioned_operations (r : pipeReadOnly) (w : pipeWriteOnly) (buf : List Byte)
    (sched : Nat → Bool) (off : Int) (hoff : off ≠ 0) :
    r.ReadAt buf 0 sched = r.Read buf sched ∧
    w.WriteAt buf 0 sched = w.Write buf sched ∧
    r.ReadAt buf off sched = .returned (buf, 0, some .ErrNotImplemented) r.namedPipe.pipeChan ∧
    w.WriteAt buf off sched = .returned (0, some .ErrNotImplemented) w.namedPipe.pipeChan := by
  refine ⟨rfl, rfl, ?_, ?_⟩
  · simp [pipeReadOnly.ReadAt, hoff]
  · simp [pipeWriteOnly.WriteAt, hoff]

/-- C9, at the offset -1 on the ends of a pipe holding `[7]`. -/
theorem positioned_operations_witness :
    (-1 : Int) ≠ 0 ∧
    (readEnd ((newPipeChan 3 4).withQueue [7])).ReadAt [0] (-1) caseBufFirst =
      .returned ([0], 0, some .ErrNotImplemented) ((newPipeChan 3 4).withQueue [7]) ∧
    (writeEnd ((newPipeChan 3 4).withQueue [7])).WriteAt [9] (-1) caseBufFirst =
      .returned (0, some .ErrNotImplemented) ((newPipeChan 3 4).withQueue [7]) :=
  ⟨by decide,
    (positioned_operations (readEnd ((newPipeChan 3 4).withQueue [7]))
      (writeEnd ((newPipeChan 3 4).withQueue [7])) [0] caseBufFirst (-1) (by decide)).2.2.1,
    (positioned_operations (readEnd ((newPipeChan 3 4).withQueue [7]))
      (writeEnd ((newPipeChan 3 4).withQueue [7])) [9] caseBufFirst (-1) (by decide)).2.2.2⟩

/-- C10. `Stat` succeeds on every pipe, through either end, and reports as size
the number of bytes in the queue at that moment, as mode the named-pipe mode
and `IsDir = false`, leaving the pipe as it was; after `wbuf` has been written
to a fresh pipe and `rbuf.length` bytes of it read, the size is the number
written less the number read. -/
theorem stat_reports_queue_length (p : pipeChan) (name : String) (reader writer : FID)
    (wbuf rbuf : List Byte) (s1 s2 : Nat → Bool) (hw : wbuf.length ≤ 32768)
    (hr : rbuf.length ≤ wbuf.length) :
    p.Stat name =
        .returned
          ({ name := name, size := (p.buf.queue.length : Int), mode := os.ModeNamedPipe },
            none) p ∧
      (readEnd p).Stat name = p.Stat name ∧ (writeEnd p).Stat name = p.Stat name ∧
      (∀ st : pipeStat, st.IsDir = false) ∧
      ∃ p1 out p2,
        (newPipeChan reader writer).Write wbuf s1 = .returned (wbuf.length, none) p1 ∧
        p1.Read rbuf s2 = .returned out p2 ∧ out.2.1 = rbuf.length ∧
        p2.Stat name =
          .returned
            ({ name := name, size := (wbuf.length : Int) - (rbuf.length : Int),
                mode := os.ModeNamedPipe }, none) p2 := by
  refine ⟨rfl, rfl, rfl, fun _ => rfl, ?_⟩
  have hopen : (newPipeChan reader writer).isOpen := ⟨rfl, rfl⟩
  have hwr := write_open_fits (newPipeChan reader writer) wbuf s1 hopen
    (by simpa [newPipeChan, Chan.make, maxPipeBuffer] using hw)
  have hq : (newPipeChan reader writer).buf.queue ++ wbuf = wbuf := by
    simp [newPipeChan, Chan.make]
  rw [hq] at hwr
  have hrd := read_open ((newPipeChan reader writer).withQueue wbuf) rbuf s2
    (withQueue_isOpen hopen _)
  have hq2 : ((newPipeChan reader writer).withQueue wbuf).buf.queue = wbuf := rfl
  rw [hq2, if_pos hr] at hrd
  refine ⟨_, _, _, hwr, hrd, rfl, ?_⟩
  have hsize : Int.ofNat (List.drop rbuf.length wbuf).length =
      (wbuf.length : Int) - (rbuf.length : Int) := by
    rw [List.length_drop, Int.ofNat_eq_coe]
    omega
  simp only [pipeChan.Stat, Chan.len, pipeChan.withQueue, hsize]

/-- C10, on the pipe 3/4: three bytes written, two read, size one. -/
theorem stat_reports_queue_length_witness :
    ([1, 2, 3] : List Byte).length ≤ 32768 ∧
    ([0, 0] : List Byte).length ≤ ([1, 2, 3] : List Byte).length ∧
    ((newPipeChan 3 4).withQueue [3]).Stat "pipe" =
      .returned ({ name := "pipe", size := 1, mode := os.ModeNamedPipe }, none)
        ((newPipeChan 3 4).withQueue [3]) :=
  ⟨by decide, by decide,
    (stat_reports_queue_length ((newPipeChan 3 4).withQueue [3]) "pipe" 3 4 [1, 2, 3] [0, 0]
      caseBufFirst caseBufFirst (by decide) (by decide)).1⟩

/-- What the loop of `Read` does in any state and under any poll order: it
takes some `m` bytes off the front of the queue into `buf[n..n+m)` and then
either returns `n + m` or parks; it parks only on an open pipe it has drained. -/
theorem read_loop_spec (sched : Nat → Bool) (k : Nat) :
    ∀ (p : pipeChan) (buf : List Byte) (n : Nat),
      ∃ m, m ≤ k ∧ m ≤ p.buf.queue.length ∧
        ((∃ err, pipeChan.Read.loop sched k p buf n =
            .returned (copyInto buf n (p.buf.queue.take m), n + m, err)
              (p.withQueue (p.buf.queue.drop m))) ∨
          (pipeChan.Read.loop sched k p buf n =
              .blocked (p.withQueue (p.buf.queue.drop m))
                (copyInto buf n (p.buf.queue.take m)) (n + m) ∧
            p.done = false ∧ p.buf.closed = false ∧ m = p.buf.queue.length ∧ m < k)) := by
  induction k with
  | zero =>
    intro p buf n
    exact ⟨0, Nat.le_refl _, Nat.zero_le _, Or.inl ⟨_, rfl⟩⟩
  | succ k ih =>
    intro p buf n
    obtain ⟨⟨q, cap, cl⟩, d, r, w⟩ := p
    cases q with
    | nil =>
      refine ⟨0, Nat.zero_le _, Nat.zero_le _, ?_⟩
      cases d <;> cases cl <;> cases hs : sched n <;>
        simp [pipeChan.Read.loop, selectgo, Chan.recvReady, Chan.recv, hs, copyInto,
          pipeChan.withQueue]
    | cons b rest =>
      by_cases hsel : selectgo d (Chan.recvReady ⟨b :: rest, cap, cl⟩) (sched n) = some 0
      · refine ⟨0, Nat.zero_le _, Nat.zero_le _, Or.inl ⟨some .EOF, ?_⟩⟩
        simp [pipeChan.Read.loop, hsel, copyInto, pipeChan.withQueue]
      · have hsel1 : selectgo d (Chan.recvReady ⟨b :: rest, cap, cl⟩) (sched n) = some 1 := by
          revert hsel
          cases d <;> cases cl <;> cases sched n <;> simp [selectgo, Chan.recvReady]
        obtain ⟨m, hmk, hmq, hres⟩ :=
          ih ⟨⟨rest, cap, cl⟩, d, r, w⟩ (buf.set n b) (n + 1)
        have harith : n + 1 + m = n + (m + 1) := by omega
        refine ⟨m + 1, by omega, by simpa using hmq, ?_⟩
        rcases hres with ⟨err, hret⟩ | ⟨hblk, hd, hc, hm, hlt⟩
        · refine Or.inl ⟨err, ?_⟩
          simp only [pipeChan.Read.loop, hsel1, Chan.recv, hret, harith]
          rfl
        · refine Or.inr ⟨?_, hd, hc, by simpa using hm, by omega⟩
          simp only [pipeChan.Read.loop, hsel1, Chan.recv, hblk, harith]
          rfl

/-- What the loop of `Write` does in any state and under any poll order: it
never parks; it panics only when `p.buf` is closed; otherwise it returns having
appended some `m` first bytes of the buffer to the queue, within the capacity. -/
theorem write_loop_spec (sched : Nat → Bool) (len : Nat) (bs : List Byte) :
    ∀ (p : pipeChan) (n : Nat),
      (pipeChan.Write.loop sched len bs p n = .panicked .sendOnClosedChannel ∧
          p.buf.closed = true) ∨
        ∃ m v, m ≤ bs.length ∧
          pipeChan.Write.loop sched len bs p n =
            .returned v (p.withQueue (p.buf.queue ++ bs.take m)) ∧
          (m = 0 ∨ (p.buf.closed = false ∧ p.buf.queue.length + m ≤ p.buf.cap)) := by
  induction bs with
  | nil =>
    intro p n
    exact Or.inr ⟨0, (n, if n < len then some .ErrShortWrite else none), Nat.le_refl _,
      by simp [pipeChan.Write.loop, pipeChan.withQueue], Or.inl rfl⟩
  | cons b rest ih =>
    intro p n
    obtain ⟨⟨q, cap, cl⟩, d, r, w⟩ := p
    by_cases hsel : selectgo d (Chan.sendReady ⟨q, cap, cl⟩) (sched n) = some 1
    · cases cl with
      | true =>
        refine Or.inl ⟨?_, rfl⟩
        simp [pipeChan.Write.loop, hsel, Chan.send]
      | false =>
        have hroom : q.length < cap := by
          revert hsel
          cases d <;> cases sched n <;> simp [selectgo, Chan.sendReady]
        rcases ih ⟨⟨q ++ [b], cap, false⟩, d, r, w⟩ (n + 1) with ⟨_, hcl⟩ | ⟨m, v, hm, hret, hcap⟩
        · cases hcl
        · refine Or.inr ⟨m + 1, v, by simpa using hm, ?_, Or.inr ⟨rfl, ?_⟩⟩
          · simp only [pipeChan.Write.loop, hsel, Chan.send, hret, Bool.false_eq_true,
              if_false]
            simp [pipeChan.withQueue]
          · rcases hcap with h0 | ⟨_, hle⟩
            · subst h0; simpa using hroom
            · simp only [List.length_append, List.length_singleton] at hle
              show q.length + (m + 1) ≤ cap
              omega
    · refine Or.inr ⟨0, ?_⟩
      revert hsel
      cases d <;> cases cl <;> cases hs : sched n <;> by_cases hroom : q.length < cap <;>
        simp [pipeChan.Write.loop, selectgo, Chan.sendReady, hroom, pipeChan.withQueue, hs]

theorem string_append_left_cancel (a b c : String) (h : a ++ b = a ++ c) : b = c := by
  have hd : (a ++ b).data = (a ++ c).data := by rw [h]
  rw [String.data_append, String.data_append] at hd
  exact String.ext (List.append_cancel_left hd)

/-- C11. `Stat` of either end of a pipe returns the name `pipeChan.Stat` gets
from `p.Name()` on the shared `*pipeChan`, the same for the two ends; when the
display forms of the reader and writer FIDs differ, that name is not
`namedPipe.Name()` of both ends. -/
theorem stat_name_ignores_end (fidString : FID → String) (name : String) (p : pipeChan)
    (hne : fidString p.reader ≠ fidString p.writer) :
    (readEnd p).Stat name =
        .returned ({ name := name, size := Int.ofNat p.buf.len, mode := os.ModeNamedPipe },
          none) p ∧
      (writeEnd p).Stat name =
        .returned ({ name := name, size := Int.ofNat p.buf.len, mode := os.ModeNamedPipe },
          none) p ∧
      ¬ (name = (readEnd p).namedPipe.Name fidString ∧
          name = (writeEnd p).namedPipe.Name fidString) := by
  refine ⟨rfl, rfl, ?_⟩
  rintro ⟨h1, h2⟩
  rw [h1] at h2
  exact hne (string_append_left_cancel "pipe" _ _ h2)

/-- C11, on the pipe 3/4 with the FIDs displayed in decimal: whatever name
`p.Name()` gives, it is not both `pipe3` and `pipe4`. -/
theorem stat_name_ignores_end_witness :
    (toString (newPipeChan 3 4).reader : String) ≠ toString (newPipeChan 3 4).writer ∧
    (readEnd (newPipeChan 3 4)).namedPipe.Name toString = "pipe3" ∧
    (writeEnd (newPipeChan 3 4)).namedPipe.Name toString = "pipe4" ∧
    ¬ ("pipe3" = (readEnd (newPipeChan 3 4)).namedPipe.Name toString ∧
        "pipe3" = (writeEnd (newPipeChan 3 4)).namedPipe.Name toString) :=
  ⟨by decide, by decide, by decide,
    (stat_name_ignores_end toString "pipe3" (newPipeChan 3 4) (by decide)).2.2⟩

theorem heap_load_alloc (h : Heap) (c : pipeChan) :
    (h.alloc c).2.load h.chans.length = some c := by
  simp [Heap.alloc, Heap.load]

theorem heap_load_alloc_old (h : Heap) (c : pipeChan) (a : Ptr) (ha : a < h.chans.length) :
    (h.alloc c).2.load a = h.load a := by
  simp [Heap.alloc, Heap.load, List.getElem?_append_left ha]

theorem heap_store_alloc (h : Heap) (c c1 : pipeChan) :
    (h.alloc c).2.store h.chans.length c1 = (h.alloc c1).2 := by
  simp [Heap.alloc, Heap.store, List.set_append]

/-- C12. Pipe creation: `FileDescriptors.Pipe` draws two FIDs from the
generator, the first for the read end and the second for the write end; with a
generator that never repeats a value they differ and neither was issued before.
It allocates one pipe channel `c`, open and empty, of capacity 32768, whose
`reader` and `writer` fields are those two FIDs; the table then holds under
each FID its descriptor, of named-pipe mode, open under the parent process, the
two files holding the one pointer to `c`: what is written through the write
file is what the read file reads. -/
theorem pipe_creation (gen : Nat → FID) (hinj : Function.Injective gen) (f : FileDescriptors)
    (h : Heap) (c : pipeChan)
    (hc : c = { buf := { queue := [], cap := 32768, closed := false }, done := false,
                reader := gen f.issued, writer := gen (f.issued + 1) }) :
    (f.Pipe gen h).1 = (gen f.issued, gen (f.issued + 1)) ∧
    gen f.issued ≠ gen (f.issued + 1) ∧
    (∀ i, i < f.issued → gen i ≠ gen f.issued ∧ gen i ≠ gen (f.issued + 1)) ∧
    (f.Pipe gen h).2.1.issued = f.issued + 2 ∧
    (f.Pipe gen h).2.1.parentPID = f.parentPID ∧
    (f.Pipe gen h).2.1.files (gen f.issued) =
      some { id := gen f.issued, file := .readOnly h.chans.length (gen f.issued),
             mode := os.ModeNamedPipe, openedBy := some f.parentPID } ∧
    (f.Pipe gen h).2.1.files (gen (f.issued + 1)) =
      some { id := gen (f.issued + 1), file := .writeOnly h.chans.length (gen (f.issued + 1)),
             mode := os.ModeNamedPipe, openedBy := some f.parentPID } ∧
    (∀ fid, fid ≠ gen f.issued → fid ≠ gen (f.issued + 1) →
      (f.Pipe gen h).2.1.files fid = f.files fid) ∧
    (f.Pipe gen h).2.2.chans = h.chans ++ [c] ∧
    (f.Pipe gen h).2.2.load h.chans.length = some c ∧
    (∀ a, a < h.chans.length → (f.Pipe gen h).2.2.load a = h.load a) ∧
    (pipeFile.readOnly h.chans.length (gen f.issued)).asReadOnly (f.Pipe gen h).2.2 =
      some (readEnd c) ∧
    (pipeFile.writeOnly h.chans.length (gen (f.issued + 1))).asWriteOnly (f.Pipe gen h).2.2 =
      some (writeEnd c) ∧
    (∀ (data buf : List Byte) (s1 s2 : Nat → Bool), data.length ≤ 32768 → data ≠ [] →
      buf.length = data.length →
      (pipeFile.writeOnly h.chans.length (gen (f.issued + 1))).Write (f.Pipe gen h).2.2 data s1 =
        some (.returned (data.length, none) (c.withQueue data), (h.alloc (c.withQueue data)).2) ∧
      (pipeFile.readOnly h.chans.length (gen f.issued)).Read
          (h.alloc (c.withQueue data)).2 buf s2 =
        some (.returned (data, data.length, none) c, (h.alloc c).2)) := by
  have hne : gen f.issued ≠ gen (f.issued + 1) := fun h => by
    have := hinj h
    omega
  have hnew : newPipeChan (gen f.issued) (gen (f.issued + 1)) = c := by
    rw [hc]; rfl
  have hheap : (f.Pipe gen h).2.2 = (h.alloc c).2 := by
    rw [← hnew]; rfl
  have hopen : c.isOpen := by rw [hc]; exact ⟨rfl, rfl⟩
  have hq : c.buf.queue = [] := by rw [hc]
  have hcap : c.buf.cap = 32768 := by rw [hc]
  have hr : c.reader = gen f.issued := by rw [hc]
  have hw : c.writer = gen (f.issued + 1) := by rw [hc]
  refine ⟨rfl, hne, ?_, rfl, rfl, ?_, ?_, ?_, ?_, ?_, ?_, ?_, ?_, ?_⟩
  · intro i hi
    constructor
    · intro h
      have := hinj h
      omega
    · intro h
      have := hinj h
      omega
  · simp [FileDescriptors.Pipe, newPipe, FileDescriptors.newFID,
      FileDescriptors.addFileDescriptor, FileDescriptors.openAt, newIrregularFileDescriptor,
      fileDescriptor.Open, Heap.alloc, hne]
  · simp [FileDescriptors.Pipe, newPipe, FileDescriptors.newFID,
      FileDescriptors.addFileDescriptor, FileDescriptors.openAt, newIrregularFileDescriptor,
      fileDescriptor.Open, Heap.alloc, hne, Ne.symm hne]
  · intro fid h1 h2
    simp [FileDescriptors.Pipe, newPipe, FileDescriptors.newFID,
      FileDescriptors.addFileDescriptor, FileDescriptors.openAt, newIrregularFileDescriptor,
      h1, h2]
  · rw [hheap]; rfl
  · rw [hheap]; exact heap_load_alloc h c
  · intro a ha
    rw [hheap]; exact heap_load_alloc_old h c a ha
  · rw [hheap]
    simp [pipeFile.asReadOnly, heap_load_alloc, readEnd, hr]
  · rw [hheap]
    simp [pipeFile.asWriteOnly, heap_load_alloc, writeEnd, hw]
  · intro data buf s1 s2 hlen hdata hbuf
    have hwrite : c.Write data s1 = .returned (data.length, none) (c.withQueue data) := by
      have := write_open_fits c data s1 hopen (by rw [hq, hcap]; simpa using hlen)
      rw [hq] at this
      simpa using this
    have hread : (c.withQueue data).Read buf s2 = .returned (data, data.length, none) c := by
      have := read_open (c.withQueue data) buf s2 (withQueue_isOpen hopen _)
      have hq2 : (c.withQueue data).buf.queue = data := rfl
      have hpos : data.length ≠ 0 := fun h0 => hdata (List.length_eq_zero.mp h0)
      rw [hq2, if_pos (by omega), hbuf, List.take_length, List.drop_length, if_neg hpos] at this
      rw [this]
      have hback : (c.withQueue data).withQueue [] = c := by rw [hc]; rfl
      rw [hback]
    constructor
    · rw [hheap]
      simp only [pipeFile.Write, heap_load_alloc, Option.map_some', pipeWriteOnly.Write, hwrite,
        Heap.after, Outcome.state, heap_store_alloc]
    · simp only [pipeFile.Read, heap_load_alloc, Option.map_some', pipeReadOnly.Read, hread,
        Heap.after, Outcome.state, heap_store_alloc]

/-- C12, on an empty table and an empty heap, with the generator that counts
0, 1, 2, ...: the pipe gets the FIDs 0 and 1 and the channel at address 0. -/
theorem pipe_creation_witness :
    Function.Injective (fun i : Nat => (i : FID)) ∧
    (FileDescriptors.Pipe (fun i => i) { parentPID := 7, issued := 0, files := fun _ => none }
        { chans := [] }).1 = (0, 1) ∧
    (FileDescriptors.Pipe (fun i => i) { parentPID := 7, issued := 0, files := fun _ => none }
        { chans := [] }).2.2.chans =
      [{ buf := { queue := [], cap := 32768, closed := false }, done := false,
         reader := 0, writer := 1 }] :=
  ⟨fun _ _ h => h,
    (pipe_creation (fun i => i) (fun _ _ h => h)
      { parentPID := 7, issued := 0, files := fun _ => none } { chans := [] }
      { buf := { queue := [], cap := 32768, closed := false }, done := false,
        reader := 0, writer := 1 } rfl).1,
    (pipe_creation (fun i => i) (fun _ _ h => h)
      { parentPID := 7, issued := 0, files := fun _ => none } { chans := [] }
      { buf := { queue := [], cap := 32768, closed := false }, done := false,
        reader := 0, writer := 1 } rfl).2.2.2.2.2.2.2.2.1⟩

theorem withQueue_wellFormed {p : pipeChan} (h : p.wellFormed) (q : List Byte)
    (hq : q.length ≤ 32768) : (p.withQueue q).wellFormed :=
  ⟨h.1, hq, h.2.2⟩

theorem read_state (p : pipeChan) (buf : List Byte) (sched : Nat → Bool) (p1 : pipeChan)
    (h : (p.Read buf sched).state = some p1) :
    ∃ m, m ≤ p.buf.queue.length ∧ p1 = p.withQueue (p.buf.queue.drop m) := by
  obtain ⟨m, _, hmq, hres⟩ := read_loop_spec sched (buf.length - 0) p buf 0
  refine ⟨m, hmq, ?_⟩
  unfold pipeChan.Read at h
  rcases hres with ⟨err, hret⟩ | ⟨hblk, _⟩
  · rw [hret] at h
    exact (Option.some.inj h).symm
  · rw [hblk] at h
    exact (Option.some.inj h).symm

theorem write_state (p : pipeChan) (buf : List Byte) (sched : Nat → Bool) (p1 : pipeChan)
    (h : (p.Write buf sched).state = some p1) :
    ∃ m, m ≤ buf.length ∧ p1 = p.withQueue (p.buf.queue ++ buf.take m) ∧
      (m = 0 ∨ (p.buf.closed = false ∧ p.buf.queue.length + m ≤ p.buf.cap)) := by
  unfold pipeChan.Write at h
  rcases write_loop_spec sched buf.length buf p 0 with ⟨hpanic, _⟩ | ⟨m, v, hm, hret, hcap⟩
  · rw [hpanic] at h
    cases h
  · rw [hret] at h
    exact ⟨m, hm, (Option.some.inj h).symm, hcap⟩

theorem close_state (p p1 : pipeChan) (h : p.Close.state = some p1) :
    (p.done = true ∧ p1 = p) ∨ (p.isOpen ∧ p1 = p.afterClose) := by
  obtain ⟨⟨q, cap, cl⟩, d, r, w⟩ := p
  cases d <;> cases cl <;>
    simp [pipeChan.Close, Chan.close, Outcome.state, pipeChan.isOpen, pipeChan.afterClose] at h ⊢
  · exact h.symm
  · exact h.symm
  · exact h.symm

/-- What any call on either end does to the shared pipe: nothing, or it takes
bytes off the front of the queue (reads), or it appends bytes within the
capacity of an unclosed `buf` (writes on the write end), or it closes an open
pipe (`Close` of the write end). -/
theorem exec_state (name : String) (p : pipeChan) (op : Op) (p1 : pipeChan)
    (h : (op.exec name p).state = some p1) :
    (∃ m, m ≤ p.buf.queue.length ∧ p1 = p.withQueue (p.buf.queue.drop m)) ∨
    (op.isWriteEndWrite = true ∧ ∃ bs : List Byte, bs ≠ [] ∧
      p1 = p.withQueue (p.buf.queue ++ bs) ∧ p.buf.closed = false ∧
      p.buf.queue.length + bs.length ≤ p.buf.cap) ∨
    (op.isWriteEndClose = true ∧ p.isOpen ∧ p1 = p.afterClose) := by
  have hsame : ∀ q : pipeChan, some p = some q →
      ∃ m, m ≤ p.buf.queue.length ∧ q = p.withQueue (p.buf.queue.drop m) :=
    fun q hq => ⟨0, Nat.zero_le _, (Option.some.inj hq).symm⟩
  have hwrite : ∀ (buf : List Byte) (sched : Nat → Bool),
      (p.Write buf sched).state = some p1 →
      (∃ m, m ≤ p.buf.queue.length ∧ p1 = p.withQueue (p.buf.queue.drop m)) ∨
      (∃ bs : List Byte, bs ≠ [] ∧ p1 = p.withQueue (p.buf.queue ++ bs) ∧
        p.buf.closed = false ∧ p.buf.queue.length + bs.length ≤ p.buf.cap) := by
    intro buf sched hw
    obtain ⟨m, hm, hp1, hcap⟩ := write_state p buf sched p1 hw
    by_cases hnil : buf.take m = []
    · left
      refine ⟨0, Nat.zero_le _, ?_⟩
      rw [hp1, hnil]
      simp [pipeChan.withQueue]
    · right
      rcases hcap with h0 | ⟨hcl, hle⟩
      · subst h0
        exact absurd rfl hnil
      · refine ⟨buf.take m, hnil, hp1, hcl, ?_⟩
        rw [List.length_take, Nat.min_eq_left hm]
        exact hle
  cases op with
  | rRead buf sched => exact Or.inl (read_state p buf sched p1 h)
  | rReadAt buf off sched =>
    by_cases hoff : off = 0
    · subst hoff
      exact Or.inl (read_state p buf sched p1 h)
    · have h2 : some p = some p1 := by
        simpa [Op.exec, Result.state, pipeReadOnly.ReadAt, hoff, Outcome.state, readEnd]
          using h
      exact Or.inl (hsame p1 h2)
  | rWrite buf => exact Or.inl (hsame p1 h)
  | rClose => exact Or.inl (hsame p1 h)
  | rStat => exact Or.inl (hsame p1 h)
  | wRead buf => exact Or.inl (hsame p1 h)
  | wWrite buf sched =>
    rcases hwrite buf sched h with h1 | h1
    · exact Or.inl h1
    · exact Or.inr (Or.inl ⟨rfl, h1⟩)
  | wWriteAt buf off sched =>
    by_cases hoff : off = 0
    · subst hoff
      rcases hwrite buf sched h with h1 | h1
      · exact Or.inl h1
      · exact Or.inr (Or.inl ⟨rfl, h1⟩)
    · have h2 : some p = some p1 := by
        simpa [Op.exec, Result.state, pipeWriteOnly.WriteAt, hoff, Outcome.state, writeEnd]
          using h
      exact Or.inl (hsame p1 h2)
  | wClose =>
    rcases close_state p p1 h with ⟨_, h1⟩ | ⟨hopen, h1⟩
    · exact Or.inl ⟨0, Nat.zero_le _, by rw [h1]; rfl⟩
    · exact Or.inr (Or.inr ⟨rfl, hopen, h1⟩)
  | wStat => exact Or.inl (hsame p1 h)

theorem next_state (res : Result) (p1 : pipeChan) (h : res.next = some p1) :
    res.state = some p1 := by
  cases res with
  | read o => cases o <;> simp_all [Result.next, Result.state, Outcome.next, Outcome.state]
  | write o => cases o <;> simp_all [Result.next, Result.state, Outcome.next, Outcome.state]
  | close o => cases o <;> simp_all [Result.next, Result.state, Outcome.next, Outcome.state]
  | stat o => cases o <;> simp_all [Result.next, Result.state, Outcome.next, Outcome.state]

/-- A property of pipes kept by every call holds of every pipe met in a run. -/
theorem run_invariant (name : String) (I : pipeChan → Prop)
    (hstep : ∀ (p : pipeChan) (op : Op) (p1 : pipeChan),
      I p → (op.exec name p).state = some p1 → I p1)
    (ops : List Op) :
    ∀ p : pipeChan, I p → ∀ e ∈ run name p ops, ∀ p1, e.2.state = some p1 → I p1 := by
  induction ops with
  | nil => intro p _ e he; simp [run] at he
  | cons op ops ih =>
    intro p hp e he p1 hp1
    simp only [run, List.mem_cons] at he
    rcases he with rfl | he
    · exact hstep p op p1 hp hp1
    · cases hnext : (op.exec name p).next with
      | none => simp [hnext] at he
      | some p2 =>
        rw [hnext] at he
        exact ih p2 (hstep p op p2 hp (next_state _ _ hnext)) e he p1 hp1

theorem exec_wellFormed (name : String) (p : pipeChan) (op : Op) (p1 : pipeChan)
    (hp : p.wellFormed) (h : (op.exec name p).state = some p1) : p1.wellFormed := by
  rcases exec_state name p op p1 h with ⟨m, _, rfl⟩ | ⟨_, bs, _, rfl, _, hle⟩ | ⟨_, hopen, rfl⟩
  · exact withQueue_wellFormed hp _ (by rw [List.length_drop]; have := hp.2.1; omega)
  · exact withQueue_wellFormed hp _ (by rw [List.length_append, ← hp.1]; exact hle)
  · exact ⟨hp.1, hp.2.1, rfl⟩

/-- C13. `Write` on a closed pipe can abort the program: in the run that closes
the fresh pipe 3/4 and then writes `[1]`, the select of `Write` polls the send
on the closed `p.buf` first and panics. Apart from that `Write` and `Close`
complete: `Write` never parks and panics only when `p.buf` is closed, and
`Close` returns on every pipe whose `buf` is closed exactly when `done` is. -/
theorem write_on_closed_pipe_panics :
    run "" (newPipeChan 3 4) [.wClose, .wWrite [1] caseBufFirst] =
      [(.wClose, .close (.returned none (newPipeChan 3 4).afterClose)),
        (.wWrite [1] caseBufFirst, .write (.panicked .sendOnClosedChannel))] ∧
    (∀ (p : pipeChan) (buf : List Byte) (sched : Nat → Bool),
      (p.Write buf sched = .panicked .sendOnClosedChannel ∧ p.buf.closed = true) ∨
        ∃ v p1, p.Write buf sched = .returned v p1) ∧
    (∀ p : pipeChan, p.buf.closed = p.done → ∃ v p1, p.Close = .returned v p1) := by
  refine ⟨rfl, ?_, ?_⟩
  · intro p buf sched
    rcases write_loop_spec sched buf.length buf p 0 with h | ⟨m, v, _, hret, _⟩
    · exact Or.inl h
    · exact Or.inr ⟨v, _, hret⟩
  · intro p hp
    obtain ⟨⟨q, cap, cl⟩, d, r, w⟩ := p
    simp only at hp
    subst hp
    cases cl <;> simp [pipeChan.Close, Chan.close]

/-- C14. Capacity invariant: in every run of calls on the two ends of a pipe
made by `newPipeChan`, each call leaves (or parks on) a pipe whose queue holds
at most 32768 bytes and whose capacity is still 32768. -/
theorem capacity_invariant (reader writer : FID) (name : String) (ops : List Op)
    (e : Op × Result) (he : e ∈ run name (newPipeChan reader writer) ops) (p : pipeChan)
    (hp : e.2.state = some p) :
    p.buf.queue.length ≤ 32768 ∧ p.buf.cap = 32768 := by
  have hinit : (newPipeChan reader writer).wellFormed := ⟨rfl, Nat.zero_le _, rfl⟩
  have h := run_invariant name pipeChan.wellFormed
    (fun p op p1 hp h => exec_wellFormed name p op p1 hp h) ops _ hinit e he p hp
  exact ⟨h.2.1, h.1⟩

/-- C14, on the run that writes `[1,2,3]` to the fresh pipe 3/4 and reads two
bytes: the pipe left by the read. -/
theorem capacity_invariant_witness :
    ((Op.rRead [0, 0] caseBufFirst,
        Result.read (.returned ([1, 2], 2, none) ((newPipeChan 3 4).withQueue [3]))) ∈
      run "" (newPipeChan 3 4) [.wWrite [1, 2, 3] caseBufFirst, .rRead [0, 0] caseBufFirst]) ∧
    ((newPipeChan 3 4).withQueue [3]).buf.queue.length ≤ 32768 ∧
    ((newPipeChan 3 4).withQueue [3]).buf.cap = 32768 :=
  ⟨List.mem_cons_of_mem _ (List.mem_cons_self _ _),
    capacity_invariant 3 4 "" [.wWrite [1, 2, 3] caseBufFirst, .rRead [0, 0] caseBufFirst]
      (Op.rRead [0, 0] caseBufFirst,
        Result.read (.returned ([1, 2], 2, none) ((newPipeChan 3 4).withQueue [3])))
      (List.mem_cons_of_mem _ (List.mem_cons_self _ _))
      ((newPipeChan 3 4).withQueue [3]) rfl⟩

theorem exec_flags (name : String) (p : pipeChan) (op : Op) (p1 : pipeChan)
    (h : (op.exec name p).state = some p1) :
    (p.done = true → p1.done = true) ∧ (p.buf.closed = true → p1.buf.closed = true) ∧
    (op.isWriteEndClose = false → p1.done = p.done ∧ p1.buf.closed = p.buf.closed) := by
  rcases exec_state name p op p1 h with ⟨m, _, rfl⟩ | ⟨_, bs, _, rfl, _, _⟩ | ⟨hc, _, rfl⟩
  · exact ⟨id, id, fun _ => ⟨rfl, rfl⟩⟩
  · exact ⟨id, id, fun _ => ⟨rfl, rfl⟩⟩
  · exact ⟨fun _ => rfl, fun _ => rfl, fun hn => by rw [hc] at hn; cases hn⟩

/-- C15. Closed is irreversible and only the write side closes: a call on
either end leaves `done` closed if it was, and `buf` closed if it was; every
call other than `Close` of the write end leaves both flags as they were; so in
a run from a closed pipe every pipe met is closed. -/
theorem closed_is_irreversible (name : String) (p : pipeChan) (op : Op) (p1 : pipeChan)
    (h : (op.exec name p).state = some p1) (ops : List Op) :
    (p.done = true → p1.done = true) ∧ (p.buf.closed = true → p1.buf.closed = true) ∧
    (op.isWriteEndClose = false → p1.done = p.done ∧ p1.buf.closed = p.buf.closed) ∧
    (p.done = true → p.buf.closed = true → ∀ e ∈ run name p ops, ∀ q, e.2.state = some q →
      q.done = true ∧ q.buf.closed = true) := by
  obtain ⟨h1, h2, h3⟩ := exec_flags name p op p1 h
  refine ⟨h1, h2, h3, fun hd hc => ?_⟩
  exact run_invariant name (fun q => q.done = true ∧ q.buf.closed = true)
    (fun q op q1 hq hq1 =>
      ⟨(exec_flags name q op q1 hq1).1 hq.1, (exec_flags name q op q1 hq1).2.1 hq.2⟩)
    ops p ⟨hd, hc⟩

/-- C15, on the closed pipe 3/4 holding `[7]`: a read of one byte leaves it
closed. -/
theorem closed_is_irreversible_witness :
    (Op.exec "" ((newPipeChan 3 4).withQueue [7]).afterClose
        (.rRead [0] caseBufFirst)).state = some (newPipeChan 3 4).afterClose ∧
    (((newPipeChan 3 4).withQueue [7]).afterClose.done = true →
      (newPipeChan 3 4).afterClose.done = true) :=
  ⟨rfl,
    (closed_is_irreversible "" ((newPipeChan 3 4).withQueue [7]).afterClose
      (.rRead [0] caseBufFirst) (newPipeChan 3 4).afterClose rfl []).1⟩

/-- C16. Blocking read on an empty open pipe: `Read` with a non-empty buffer
parks at once, no case of its select being ready; a call on either end leaves
the pipe as it is (and the read parked) unless it is a `Write` of the write end
that queues a byte or the `Close` of the write end; once a byte is queued the
parked read copies it, and once the pipe is closed it returns end-of-stream. -/
theorem blocking_read_on_empty_open (p : pipeChan) (buf : List Byte) (sched : Nat → Bool)
    (hopen : p.isOpen) (hempty : p.buf.queue = []) (hbuf : buf ≠ []) :
    p.Read buf sched = .blocked p buf 0 ∧
    selectgo p.done p.buf.recvReady (sched 0) = none ∧
    (∀ (name : String) (op : Op) (p1 : pipeChan), (op.exec name p).state = some p1 →
      p1 = p ∨ (op.isWriteEndWrite = true ∧ p1.buf.queue ≠ [] ∧ p1.isOpen) ∨
        (op.isWriteEndClose = true ∧ p1 = p.afterClose)) ∧
    (∀ b : Byte, pipeChan.Read.loop sched buf.length (p.withQueue [b]) buf 0 =
      if buf.length ≤ 1 then .returned (buf.set 0 b, 1, none) p
      else .blocked p (buf.set 0 b) 1) ∧
    pipeChan.Read.loop sched buf.length p.afterClose buf 0 =
      .returned (buf, 0, some .EOF) p.afterClose := by
  obtain ⟨⟨q, cap, cl⟩, d, r, w⟩ := p
  obtain ⟨hd, hc⟩ := hopen
  simp only at hd hc hempty
  subst hd hc hempty
  cases buf with
  | nil => exact absurd rfl hbuf
  | cons x rest =>
    refine ⟨rfl, rfl, ?_, ?_, ?_⟩
    · intro name op p1 h
      rcases exec_state name _ op p1 h with ⟨m, _, rfl⟩ | ⟨hw, bs, hbs, rfl, _, _⟩ |
        ⟨hcl, _, rfl⟩
      · exact Or.inl (by simp [pipeChan.withQueue])
      · exact Or.inr (Or.inl ⟨hw, by simpa [pipeChan.withQueue] using hbs, ⟨rfl, rfl⟩⟩)
      · exact Or.inr (Or.inr ⟨hcl, rfl⟩)
    · intro b
      cases rest with
      | nil => simp [pipeChan.Read.loop, selectgo, Chan.recvReady, Chan.recv, pipeChan.withQueue]
      | cons y rest2 =>
        simp [pipeChan.Read.loop, selectgo, Chan.recvReady, Chan.recv, pipeChan.withQueue]
    · cases hs : sched 0 <;>
        simp [pipeChan.Read.loop, selectgo, Chan.recvReady, Chan.recv, pipeChan.afterClose, hs]

/-- C16, on the fresh pipe 3/4 and a buffer of one byte. -/
theorem blocking_read_on_empty_open_witness :
    (newPipeChan 3 4).isOpen ∧ (newPipeChan 3 4).buf.queue = [] ∧ ([0] : List Byte) ≠ [] ∧
    (newPipeChan 3 4).Read [0] caseBufFirst = .blocked (newPipeChan 3 4) [0] 0 :=
  ⟨⟨rfl, rfl⟩, rfl, by decide,
    (blocking_read_on_empty_open (newPipeChan 3 4) [0] caseBufFirst ⟨rfl, rfl⟩ rfl
      (by decide)).1⟩

theorem read_iterations_le (sched : Nat → Bool) (k : Nat) :
    ∀ (p : pipeChan) (n : Nat), pipeChan.Read.iterations sched k p n ≤ k := by
  induction k with
  | zero => intro p n; simp [pipeChan.Read.iterations]
  | succ k ih =>
    intro p n
    obtain ⟨⟨q, cap, cl⟩, d, r, w⟩ := p
    cases q with
    | nil =>
      cases d <;> cases cl <;> cases hs : sched n <;>
        simp [pipeChan.Read.iterations, selectgo, Chan.recvReady, Chan.recv, hs]
    | cons b rest =>
      have hk := ih ⟨⟨rest, cap, cl⟩, d, r, w⟩ (n + 1)
      cases d <;> cases cl <;> cases hs : sched n <;>
        simp [pipeChan.Read.iterations, selectgo, Chan.recvReady, Chan.recv, hs] <;> omega

/-- C17. `Read` never suspends on a closed pipe: whatever is queued and whatever
the poll orders, it returns, having entered its loop at most `len(buf)` times,
with `n` at most `len(buf)` and at most the number of bytes queued. -/
theorem read_returns_when_closed (p : pipeChan) (buf : List Byte) (sched : Nat → Bool)
    (hdone : p.done = true) :
    ∃ m err, p.Read buf sched =
        .returned (copyInto buf 0 (p.buf.queue.take m), m, err)
          (p.withQueue (p.buf.queue.drop m)) ∧
      m ≤ min buf.length p.buf.queue.length ∧
      pipeChan.Read.iterations sched buf.length p 0 ≤ buf.length := by
  obtain ⟨m, hmk, hmq, hres⟩ := read_loop_spec sched (buf.length - 0) p buf 0
  rcases hres with ⟨err, hret⟩ | ⟨_, hd, _⟩
  · refine ⟨m, err, ?_, ?_, read_iterations_le sched buf.length p 0⟩
    · unfold pipeChan.Read
      rw [hret, Nat.zero_add]
    · simp only [Nat.sub_zero] at hmk
      omega
  · rw [hdone] at hd
    cases hd

/-- C17, on the closed pipe 3/4 holding `[7]` and a buffer of two. -/
theorem read_returns_when_closed_witness :
    ((newPipeChan 3 4).withQueue [7]).afterClose.done = true ∧
    ((newPipeChan 3 4).withQueue [7]).afterClose.Read [0, 0] caseBufFirst =
      .returned ([7, 0], 1, some .EOF) (newPipeChan 3 4).afterClose ∧
    ∃ m err, ((newPipeChan 3 4).withQueue [7]).afterClose.Read [0, 0] caseBufFirst =
        .returned
          (copyInto [0, 0] 0 (((newPipeChan 3 4).withQueue [7]).afterClose.buf.queue.take m),
            m, err)
          (((newPipeChan 3 4).withQueue [7]).afterClose.withQueue
            (((newPipeChan 3 4).withQueue [7]).afterClose.buf.queue.drop m)) ∧
      m ≤ min ([0, 0] : List Byte).length
        ((newPipeChan 3 4).withQueue [7]).afterClose.buf.queue.length ∧
      pipeChan.Read.iterations caseBufFirst ([0, 0] : List Byte).length
        ((newPipeChan 3 4).withQueue [7]).afterClose 0 ≤ ([0, 0] : List Byte).length :=
  ⟨rfl, rfl,
    read_returns_when_closed ((newPipeChan 3 4).withQueue [7]).afterClose [0, 0] caseBufFirst
      rfl⟩

/-- C18. Close/drain nondeterminism: on the pipe 3/4 closed with `[7]` still
queued, which the run "write `[7]`, close" reaches, `Read` with a buffer of one
byte returns the byte when the select polls `p.buf` first, and returns zero
bytes with end-of-stream, the byte left in the queue, when it polls `p.done`
first. -/
theorem close_drain_nondeterminism :
    ∃ (p : pipeChan) (buf : List Byte) (s1 s2 : Nat → Bool),
      (newPipeChan 3 4).Write [7] caseBufFirst =
        .returned (1, none) ((newPipeChan 3 4).withQueue [7]) ∧
      ((newPipeChan 3 4).withQueue [7]).Close = .returned none p ∧
      p.done = true ∧ p.buf.closed = true ∧ 1 ≤ p.buf.queue.length ∧ buf ≠ [] ∧
      p.Read buf s1 = .returned ([7], 1, none) (p.withQueue []) ∧
      p.Read buf s2 = .returned (buf, 0, some .EOF) p ∧
      p.buf.queue = [7] ∧ p.Read buf s1 ≠ p.Read buf s2 :=
  ⟨((newPipeChan 3 4).withQueue [7]).afterClose, [0], caseBufFirst, caseDoneFirst,
    rfl, rfl, rfl, rfl, by decide, by decide, rfl, rfl, rfl, by decide⟩

/-- C19. Zero-length read: on every pipe, open or closed, empty or not, `Read`
with a buffer of length 0 returns at once `n = 0` with `io.EOF` and leaves the
pipe as it was. -/
theorem zero_length_read (p : pipeChan) (sched : Nat → Bool) :
    p.Read [] sched = .returned ([], 0, some .EOF) p ∧
    (readEnd p).Read [] sched = .returned ([], 0, some .EOF) p := ⟨rfl, rfl⟩

/-- One stretch of `Read`, from `n` bytes copied to its return or park: it moves
some `m` first bytes of the queue to `buf[n..n+m)` and nothing else. -/
theorem read_stretch (sched : Nat → Bool) (p : pipeChan) (buf : List Byte) (n : Nat)
    (hn : n ≤ buf.length) :
    ∃ m, n + m ≤ buf.length ∧ m ≤ p.buf.queue.length ∧
      ((∃ err, pipeChan.Read.loop sched (buf.length - n) p buf n =
          .returned (buf.take n ++ p.buf.queue.take m ++ buf.drop (n + m), n + m, err)
            (p.withQueue (p.buf.queue.drop m))) ∨
        (pipeChan.Read.loop sched (buf.length - n) p buf n =
            .blocked (p.withQueue (p.buf.queue.drop m))
              (buf.take n ++ p.buf.queue.take m ++ buf.drop (n + m)) (n + m) ∧
          p.isOpen ∧ m = p.buf.queue.length ∧ n + m < buf.length)) := by
  obtain ⟨m, hmk, hmq, hres⟩ := read_loop_spec sched (buf.length - n) p buf n
  have hlen : (p.buf.queue.take m).length = m := by
    rw [List.length_take]; omega
  have hcopy := copyInto_eq (p.buf.queue.take m) buf n (by rw [hlen]; omega)
  rw [hlen] at hcopy
  refine ⟨m, by omega, hmq, ?_⟩
  rcases hres with ⟨err, hret⟩ | ⟨hblk, hd, hcl, hm, hlt⟩
  · exact Or.inl ⟨err, by rw [hret, hcopy]⟩
  · exact Or.inr ⟨by rw [hblk, hcopy], ⟨hd, hcl⟩, hm, by omega⟩

/-- The buffer a stretch leaves, cut at the new count and at the old one. -/
theorem stretch_buffer (buf q : List Byte) (n m : Nat) (hn : n + m ≤ buf.length)
    (hm : m ≤ q.length) :
    (buf.take n ++ q.take m ++ buf.drop (n + m)).take (n + m) = buf.take n ++ q.take m ∧
    (buf.take n ++ q.take m ++ buf.drop (n + m)).drop (n + m) = buf.drop (n + m) ∧
    (buf.take n ++ q.take m ++ buf.drop (n + m)).take n = buf.take n ∧
    (buf.take n ++ q.take m ++ buf.drop (n + m)).length = buf.length := by
  have h1 : (buf.take n ++ q.take m).length = n + m := by
    simp only [List.length_append, List.length_take]; omega
  have h2 : (buf.take n).length = n := by
    rw [List.length_take]; omega
  refine ⟨List.take_left' h1, List.drop_left' h1, ?_, ?_⟩
  · rw [List.append_assoc]
    exact List.take_left' h2
  · simp only [List.length_append, List.length_take, List.length_drop]; omega

theorem exec_nonread_queue (name : String) (p : pipeChan) (op : Op) (p1 : pipeChan)
    (hop : op.isReadEndRead = false) (h : (op.exec name p).next = some p1) :
    ∃ a, p1.buf.queue = p.buf.queue ++ a := by
  have hst := next_state _ _ h
  have hsame : ∀ q : pipeChan, some p = some q → ∃ a, q.buf.queue = p.buf.queue ++ a :=
    fun q hq => ⟨[], by rw [← Option.some.inj hq, List.append_nil]⟩
  have hwrite : ∀ (buf : List Byte) (sched : Nat → Bool),
      (p.Write buf sched).state = some p1 → ∃ a, p1.buf.queue = p.buf.queue ++ a := by
    intro buf sched hw
    obtain ⟨m, _, hp1, _⟩ := write_state p buf sched p1 hw
    exact ⟨buf.take m, by rw [hp1]; rfl⟩
  cases op with
  | rRead buf sched => cases hop
  | rReadAt buf off sched => cases hop
  | rWrite buf => exact hsame p1 hst
  | rClose => exact hsame p1 hst
  | rStat => exact hsame p1 hst
  | wRead buf => exact hsame p1 hst
  | wWrite buf sched => exact hwrite buf sched hst
  | wWriteAt buf off sched =>
    by_cases hoff : off = 0
    · subst hoff
      exact hwrite buf sched hst
    · have h2 : some p = some p1 := by
        simpa [Op.exec, Result.state, pipeWriteOnly.WriteAt, hoff, Outcome.state, writeEnd]
          using hst
      exact hsame p1 h2
  | wClose =>
    rcases close_state p p1 hst with ⟨_, h1⟩ | ⟨_, h1⟩
    · exact ⟨[], by rw [h1, List.append_nil]⟩
    · exact ⟨[], by rw [h1, List.append_nil]; rfl⟩
  | wStat => exact hsame p1 hst

theorem runState_nonread_queue (name : String) (ops : List Op) :
    ∀ (p p1 : pipeChan), (∀ op ∈ ops, op.isReadEndRead = false) →
      runState name p ops = some p1 → ∃ a, p1.buf.queue = p.buf.queue ++ a := by
  induction ops with
  | nil =>
    intro p p1 _ h
    exact ⟨[], by rw [← Option.some.inj h, List.append_nil]⟩
  | cons op ops ih =>
    intro p p1 hops h
    cases hnext : (op.exec name p).next with
    | none => simp [runState, hnext] at h
    | some p2 =>
      simp only [runState, hnext] at h
      obtain ⟨a1, h1⟩ := exec_nonread_queue name p op p2 (hops op (List.mem_cons_self _ _)) hnext
      obtain ⟨a2, h2⟩ := ih p2 p1 (fun o ho => hops o (List.mem_cons_of_mem _ ho)) h
      exact ⟨a1 ++ a2, by rw [h2, h1, List.append_assoc]⟩

/-- A `Read` followed through its parks, the other goroutines not reading: the
bytes it returns followed by the queue it leaves are the bytes it had copied
followed by the queue it found and by bytes appended meanwhile. -/
theorem read_through_spec (name : String) (sched : Nat → Bool) (envs : List (List Op)) :
    ∀ (p : pipeChan) (buf : List Byte) (n : Nat), n ≤ buf.length →
      (∀ env ∈ envs, ∀ op ∈ env, op.isReadEndRead = false) →
      ∀ (out : List Byte) (n1 : Nat) (err : Option Error) (p1 : pipeChan),
        pipeChan.Read.through name sched envs p buf n = .returned (out, n1, err) p1 →
        ∃ appended, out.take n1 ++ p1.buf.queue = buf.take n ++ p.buf.queue ++ appended ∧
          n ≤ n1 ∧ n1 ≤ buf.length ∧ out.take n = buf.take n ∧
          out.drop n1 = buf.drop n1 ∧ out.length = buf.length := by
  induction envs with
  | nil =>
    intro p buf n hn _ out n1 err p1 h
    obtain ⟨m, hnm, hmq, hres⟩ := read_stretch sched p buf n hn
    obtain ⟨e1, e2, e3, e4⟩ := stretch_buffer buf p.buf.queue n m hnm hmq
    simp only [pipeChan.Read.through] at h
    rcases hres with ⟨err1, hret⟩ | ⟨hblk, _⟩
    · rw [hret] at h
      simp only [Outcome.returned.injEq, Prod.mk.injEq] at h
      obtain ⟨⟨hout, hn1, _⟩, hp1⟩ := h
      subst hout hn1 hp1
      refine ⟨[], ?_, by omega, hnm, e3, e2, e4⟩
      rw [e1, List.append_nil, List.append_assoc]
      show _ ++ (_ ++ List.drop m p.buf.queue) = _
      rw [List.take_append_drop]
    · rw [hblk] at h
      cases h
  | cons env envs ih =>
    intro p buf n hn henv out n1 err p1 h
    obtain ⟨m, hnm, hmq, hres⟩ := read_stretch sched p buf n hn
    obtain ⟨e1, e2, e3, e4⟩ := stretch_buffer buf p.buf.queue n m hnm hmq
    simp only [pipeChan.Read.through] at h
    rcases hres with ⟨err1, hret⟩ | ⟨hblk, _⟩
    · rw [hret] at h
      simp only [Outcome.returned.injEq, Prod.mk.injEq] at h
      obtain ⟨⟨hout, hn1, _⟩, hp1⟩ := h
      subst hout hn1 hp1
      refine ⟨[], ?_, by omega, hnm, e3, e2, e4⟩
      rw [e1, List.append_nil, List.append_assoc]
      show _ ++ (_ ++ List.drop m p.buf.queue) = _
      rw [List.take_append_drop]
    · rw [hblk] at h
      simp only at h
      cases hrun : runState name (p.withQueue (p.buf.queue.drop m)) env with
      | none =>
        rw [hrun] at h
        cases h
      | some p2 =>
        rw [hrun] at h
        simp only at h
        obtain ⟨a1, ha1⟩ := runState_nonread_queue name env _ p2
          (henv env (List.mem_cons_self _ _)) hrun
        obtain ⟨a2, hcons, hle1, hle2, htake, hdrop, hlen⟩ :=
          ih p2 _ (n + m) (by rw [e4]; exact hnm)
            (fun e he => henv e (List.mem_cons_of_mem _ he)) out n1 err p1 h
        rw [e4] at hle2 hlen
        refine ⟨a1 ++ a2, ?_, by omega, hle2, ?_, ?_, hlen⟩
        · rw [hcons, e1, ha1]
          show _ ++ (List.drop m p.buf.queue ++ a1) ++ a2 = _
          simp only [List.append_assoc]
          rw [← List.append_assoc (List.take m p.buf.queue), List.take_append_drop]
        · have h1 : out.take n = (out.take (n + m)).take n := by
            rw [List.take_take, Nat.min_eq_left (Nat.le_add_right n m)]
          rw [h1, htake, e1, List.take_left']
          rw [List.length_take]; omega
        · have hB : ∀ l : List Byte, l.drop n1 = (l.drop (n + m)).drop (n1 - (n + m)) := by
            intro l
            rw [List.drop_drop]; congr 1; omega
          rw [hdrop, hB, e2, ← hB]

/-- C20, as stated, fails: the open pipe 3/4 holds the one byte `7` and `Read` is
given a buffer of two; it copies `7` and parks, another goroutine writes `[8]`,
and the call then returns `n = 2` with `[7, 8]`: more than the queue held before
the call, so not the first two bytes of that queue. -/
theorem read_conserves_counterexample :
    ((newPipeChan 3 4).withQueue [7]).Read [0, 0] caseBufFirst =
      .blocked (newPipeChan 3 4) [7, 0] 1 ∧
    (writeEnd (newPipeChan 3 4)).Write [8] caseBufFirst =
      .returned (1, none) ((newPipeChan 3 4).withQueue [8]) ∧
    pipeChan.Read.through "" caseBufFirst [[.wWrite [8] caseBufFirst]]
        ((newPipeChan 3 4).withQueue [7]) [0, 0] 0 =
      .returned ([7, 8], 2, none) (newPipeChan 3 4) ∧
    ¬ (2 ≤ ((newPipeChan 3 4).withQueue [7]).buf.queue.length) ∧
    ([7, 8] : List Byte).take 2 ≠ ((newPipeChan 3 4).withQueue [7]).buf.queue.take 2 :=
  ⟨rfl, rfl, rfl, by decide, by decide⟩

/-- C20, amended. `Read` conserves the byte stream stretch by stretch. Each
stretch of its loop, from `n` bytes copied to its return or its park, stores in
`buf[n..n+m)` exactly the first `m` bytes of the queue as it was when the
stretch began, leaves exactly the remaining suffix queued and every other
buffer position as it was, with `n + m ≤ len(buf)`; it parks only on an open
pipe it has drained with the buffer not full. So a `Read` that returns without
having parked returns the first bytes of the queue it found; and followed
through its parks, while no other goroutine reads, the bytes a call returns
followed by the queue it leaves are the bytes copied at the start followed by
the queue found and by the bytes appended meanwhile. -/
theorem read_conserves (p : pipeChan) (buf : List Byte) (sched : Nat → Bool) (n : Nat)
    (hn : n ≤ buf.length) (name : String) (envs : List (List Op))
    (henv : ∀ env ∈ envs, ∀ op ∈ env, op.isReadEndRead = false) :
    (∃ m, n + m ≤ buf.length ∧ m ≤ p.buf.queue.length ∧
      ((∃ err, pipeChan.Read.loop sched (buf.length - n) p buf n =
          .returned (buf.take n ++ p.buf.queue.take m ++ buf.drop (n + m), n + m, err)
            (p.withQueue (p.buf.queue.drop m))) ∨
        (pipeChan.Read.loop sched (buf.length - n) p buf n =
            .blocked (p.withQueue (p.buf.queue.drop m))
              (buf.take n ++ p.buf.queue.take m ++ buf.drop (n + m)) (n + m) ∧
          p.isOpen ∧ m = p.buf.queue.length ∧ n + m < buf.length))) ∧
    (∀ (out : List Byte) (n1 : Nat) (err : Option Error) (p1 : pipeChan),
      p.Read buf sched = .returned (out, n1, err) p1 →
        n1 ≤ buf.length ∧ n1 ≤ p.buf.queue.length ∧
        out.take n1 = p.buf.queue.take n1 ∧ out.drop n1 = buf.drop n1 ∧
        out.length = buf.length ∧ p1 = p.withQueue (p.buf.queue.drop n1) ∧
        p.buf.queue = out.take n1 ++ p1.buf.queue) ∧
    (∀ (out : List Byte) (n1 : Nat) (err : Option Error) (p1 : pipeChan),
      pipeChan.Read.through name sched envs p buf n = .returned (out, n1, err) p1 →
        ∃ appended, out.take n1 ++ p1.buf.queue = buf.take n ++ p.buf.queue ++ appended ∧
          n ≤ n1 ∧ n1 ≤ buf.length ∧ out.take n = buf.take n ∧
          out.drop n1 = buf.drop n1 ∧ out.length = buf.length) := by
  refine ⟨read_stretch sched p buf n hn, ?_, ?_⟩
  · intro out n1 err p1 h
    obtain ⟨m, hnm, hmq, hres⟩ := read_stretch sched p buf 0 (Nat.zero_le _)
    obtain ⟨e1, e2, _, e4⟩ := stretch_buffer buf p.buf.queue 0 m hnm hmq
    unfold pipeChan.Read at h
    rcases hres with ⟨err1, hret⟩ | ⟨hblk, _⟩
    · rw [hret] at h
      simp only [Outcome.returned.injEq, Prod.mk.injEq] at h
      obtain ⟨⟨hout, hn1, _⟩, hp1⟩ := h
      simp only [Nat.zero_add] at e1 e2 e4 hnm hout hn1
      subst hout hn1 hp1
      have e5 : (buf.take 0 ++ p.buf.queue.take m ++ buf.drop m).take m = p.buf.queue.take m := by
        rw [e1, List.take_zero, List.nil_append]
      refine ⟨hnm, hmq, e5, e2, e4, rfl, ?_⟩
      rw [e5]
      exact (List.take_append_drop m p.buf.queue).symm
    · rw [hblk] at h
      cases h
  · intro out n1 err p1 h
    exact read_through_spec name sched envs p buf n hn henv out n1 err p1 h

/-- C20 amended, on the pipe 3/4 holding `[7]`, a buffer of two and a write of
`[8]` while the read is parked: `[7, 8]` is returned, the queue found followed
by the byte appended. -/
theorem read_conserves_witness :
    (0 ≤ ([0, 0] : List Byte).length) ∧
    pipeChan.Read.through "" caseBufFirst [[.wWrite [8] caseBufFirst]]
        ((newPipeChan 3 4).withQueue [7]) [0, 0] 0 =
      .returned ([7, 8], 2, none) (newPipeChan 3 4) ∧
    ∃ appended, ([7, 8] : List Byte).take 2 ++ (newPipeChan 3 4).buf.queue =
        ([0, 0] : List Byte).take 0 ++ ((newPipeChan 3 4).withQueue [7]).buf.queue ++ appended ∧
      0 ≤ 2 ∧ 2 ≤ ([0, 0] : List Byte).length ∧
      ([7, 8] : List Byte).take 0 = ([0, 0] : List Byte).take 0 ∧
      ([7, 8] : List Byte).drop 2 = ([0, 0] : List Byte).drop 2 ∧
      ([7, 8] : List Byte).length = ([0, 0] : List Byte).length :=
  ⟨by decide, rfl,
    (read_conserves ((newPipeChan 3 4).withQueue [7]) [0, 0] caseBufFirst 0 (by decide) ""
      [[.wWrite [8] caseBufFirst]]
      (by
        intro env he op ho
        simp only [List.mem_singleton] at he
        subst he
        simp only [List.mem_singleton] at ho
        subst ho
        rfl)).2.2 [7, 8] 2 none (newPipeChan 3 4) rfl⟩

end fs
